import Mathlib

/-!
Verification development for the authoritative Battleship server
(`server/server.js`).  The server's pure game logic is shallowly embedded:

* a stored board is embedded as a total function `BoardF = ℕ → ℕ → Int`
  (array indexing inside the 10×10 range; all transitions only read and
  write in-range cells, out-of-range reads return the JS-`undefined`-like
  default 0 used by the guarded accesses in the source);
* the untrusted `payload.board` of a `PLACE_FLEET` message is embedded as a
  `List (List Int)` (an arbitrary jagged integer grid; inputs whose cells
  are not numbers are subsumed by the `none` payload case, since the shape
  validator rejects them identically);
* fallible operations return `Option`: the source's `{}` rejection value of
  `sanitizeFleet` is `none`;
* the room registry and the per-connection bindings (`ws.room`,
  `ws.playerId`) are association lists with JavaScript `Map`/object
  insert-or-replace-in-place semantics (`aset`);
* the nondeterministic inputs of the source (fresh 6-digit code, fresh
  player UUID, `Math.random()` first-turn coin) are oracle arguments
  carried on the corresponding action constructors.
-/

namespace Battleship

/-- Grid dimension (`SIZE` in the source). -/
def SIZE : ℕ := 10

/-- Empty-cell value (`EMPTY` in the source). -/
def EMPTY : Int := 0

/-- A stored 10×10 board, embedded as a total function. -/
abbrev BoardF := ℕ → ℕ → Int

/-- The all-empty board (`emptyBoard` in the source). -/
def emptyBoardF : BoardF := fun _ _ => 0

/-- Pointwise write of one cell, the embedding of `board[r][c] = v`. -/
def bset (bd : BoardF) (r c : ℕ) (v : Int) : BoardF :=
  fun x y => if x = r ∧ y = c then v else bd x y

/-- Read cell `(r, c)` of an untrusted jagged grid; out-of-range reads give
0, mirroring the fact that every raw read in the source is guarded by `inb`
or by the shape validation. -/
def bget (b : List (List Int)) (r c : ℕ) : Int :=
  (b.getD r []).getD c 0

/-- Bounds test on natural coordinates (`inb` in the source; the `≥ 0` half
is vacuous on `ℕ`). -/
def inb (r c : ℕ) : Bool := decide (r < SIZE ∧ c < SIZE)

/-- Bounds test on integer coordinates, used for the four orthogonal
neighbours in the branch check, where `cc-1`/`rr-1` may be negative. -/
def inbZ (r c : Int) : Bool := decide (0 ≤ r ∧ r < 10 ∧ 0 ≤ c ∧ c < 10)

/-- Read a cell addressed by integer coordinates (only ever used under an
`inbZ` guard). -/
def bgetZ (b : List (List Int)) (r c : Int) : Int := bget b r.toNat c.toNat

/-- A reconstructed ship: original cell value `id`, run length, the run's
cells in walk order, and the set of struck cells.  The source keys `hits`
by the string `"r,c"`; since both coordinates are single digits that key is
in bijection with the pair `(r, c)`, which is what we store. -/
structure Ship where
  id : Int
  length : ℕ
  cells : List (ℕ × ℕ)
  hits : List (ℕ × ℕ)
deriving DecidableEq

/-- Visited matrix of the sanitizer scan. -/
abbrev Vis := ℕ → ℕ → Bool

/-- Horizontal walk of `sanitizeFleet`: starting at column `c` of row `r`,
collect cells while in bounds, carrying value `i`, and unvisited.  The
source increments `cc` while marking cells visited; since the walk never
revisits a column, reading the pre-walk `vis` is equivalent.  `fuel` is an
upper bound on the remaining columns (called with `SIZE`). -/
def walkH (b : List (List Int)) (i : Int) (vis : Vis) (r : ℕ) : ℕ → ℕ → List (ℕ × ℕ)
  | _, 0 => []
  | c, fuel+1 =>
    if inb r c && (bget b r c == i) && !vis r c then
      (r, c) :: walkH b i vis r (c+1) fuel
    else []

/-- Vertical walk of `sanitizeFleet`, the row-wise mirror of `walkH`. -/
def walkV (b : List (List Int)) (i : Int) (vis : Vis) (c : ℕ) : ℕ → ℕ → List (ℕ × ℕ)
  | _, 0 => []
  | r, fuel+1 =>
    if inb r c && (bget b r c == i) && !vis r c then
      (r, c) :: walkV b i vis c (r+1) fuel
    else []

/-- The four orthogonal neighbours of a cell, in the source's order, with
integer coordinates so that `-1` offsets are representable. -/
def nbrsOf (rr cc : ℕ) : List (Int × Int) :=
  [((rr : Int), (cc : Int) - 1), ((rr : Int), (cc : Int) + 1),
   ((rr : Int) - 1, (cc : Int)), ((rr : Int) + 1, (cc : Int))]

/-- Branch detection of `sanitizeFleet`: some collected cell has an
in-bounds orthogonal neighbour carrying the run's value that is not itself
a member of the collected run. -/
def hasBranch (b : List (List Int)) (i : Int) (cells : List (ℕ × ℕ)) : Bool :=
  cells.any fun p =>
    (nbrsOf p.1 p.2).any fun q =>
      inbZ q.1 q.2 && (bgetZ b q.1 q.2 == i) && !(cells.contains (q.1.toNat, q.2.toNat))

/-- Mark every collected cell visited. -/
def markCells (vis : Vis) (cells : List (ℕ × ℕ)) : Vis :=
  cells.foldl (fun v p => fun x y => if x = p.1 ∧ y = p.2 then true else v x y) vis

/-- Orientation decision plus walk of `sanitizeFleet` at an unvisited
non-empty cell: horizontal if the right neighbour carries the same value,
else vertical if the down neighbour does, else a single cell. -/
def runFrom (b : List (List Int)) (vis : Vis) (r c : ℕ) (i : Int) : List (ℕ × ℕ) :=
  if inb r (c+1) && (bget b r (c+1) == i) then walkH b i vis r c SIZE
  else if inb (r+1) c && (bget b (r+1) c == i) then walkV b i vis c r SIZE
  else [(r, c)]

/-- One cell of the row-major sanitizer scan: skip empty or visited cells,
otherwise extract a run, reject (`none`) on a branch, else record the run
as a ship.  The state is `none` once any run has been rejected. -/
def scanStep (b : List (List Int)) (st : Option (Vis × List Ship)) (p : ℕ × ℕ) :
    Option (Vis × List Ship) :=
  match st with
  | none => none
  | some (vis, ships) =>
    let i := bget b p.1 p.2
    if i == EMPTY || vis p.1 p.2 then some (vis, ships)
    else
      let cells := runFrom b vis p.1 p.2 i
      if hasBranch b i cells then none
      else some (markCells vis cells, ships ++ [⟨i, cells.length, cells, []⟩])

/-- All 100 positions in row-major order, the source's nested `for` loops. -/
def allPos : List (ℕ × ℕ) :=
  (List.range SIZE).flatMap fun r => (List.range SIZE).map fun c => (r, c)

/-- The complete run-extraction scan of `sanitizeFleet` (lines 185–233 of
the source): `none` exactly when some extracted run branches. -/
def extractShips (b : List (List Int)) : Option (List Ship) :=
  (allPos.foldl (scanStep b) (some (fun _ _ => false, []))).map (·.2)

/-- Shape validation of `sanitizeFleet`: 10 rows, 10 columns each, every
cell a non-negative integer. -/
def validBoard (b : List (List Int)) : Bool :=
  (b.length == SIZE) &&
    b.all fun row => (row.length == SIZE) && row.all fun v => decide (0 ≤ v)

/-- Insert `x` into a sorted list, after any elements tied with it — the
insertion step of a stable sort. -/
def insertLe {α : Type} (le : α → α → Bool) (x : α) : List α → List α
  | [] => [x]
  | y :: t => if le x y && !le y x then x :: y :: t else y :: insertLe le x t

/-- Stable sort by insertion, the embedding of JavaScript's (specified
stable) `Array.prototype.sort` with a total comparator: elements tied
under `le` keep their original relative order. -/
def isortLe {α : Type} (le : α → α → Bool) (l : List α) : List α :=
  l.foldl (fun acc x => insertLe le x acc) []

/-- Ship lengths sorted descending, the embedding of
`ships.map(s=>s.length).sort((a,b)=>b-a)`; the source compares the
comma-joined string, which determines and is determined by this list. -/
def sortedLens (ships : List Ship) : List ℕ :=
  isortLe (fun a b => decide (b ≤ a)) (ships.map (·.length))

/-- The required length multiset, descending: `[5,4,3,3,2]`. -/
def wantedLens : List ℕ := [5, 4, 3, 3, 2]

/-- Renumbering step of `sanitizeFleet`: stable sort by original `id`
ascending (`sort((a,b)=>a.id-b.id)`), then reassign ids `1..n`. -/
def renumber (ships : List Ship) : List Ship :=
  ((isortLe (fun a b => decide (a.id ≤ b.id)) ships).enum).map fun q =>
    { q.2 with id := (q.1 : Int) + 1 }

/-- Rebuild a fresh board from the renumbered ships. -/
def buildBoard (ships : List Ship) : BoardF :=
  ships.foldl (fun bd s => s.cells.foldl (fun bd2 p => bset bd2 p.1 p.2 s.id) bd)
    emptyBoardF

/-- The fleet sanitizer (`sanitizeFleet`, lines 169–249 of the source).
`none` payload covers a falsy `payload` and a non-array `payload.board`;
the result is `none` exactly where the source returns `{}`. -/
def sanitizeFleet (payload : Option (List (List Int))) : Option (BoardF × List Ship) :=
  match payload with
  | none => none
  | some b =>
    if !validBoard b then none
    else
      match extractShips b with
      | none => none
      | some ships =>
        if sortedLens ships ≠ wantedLens then none
        else
          let ships2 := renumber ships
          some (buildBoard ships2, ships2)

/-- Fog-of-war projection (`maskOpponentBoard`, lines 108–118): every cell
of the 10×10 range is zeroed unless the requester's marks grid records a
confirmed hit (value 2) there.  The source's null-board/null-marks guards
are handled at the call sites of the embedding, where both grids always
exist. -/
def maskOpponentBoard (board marks : BoardF) : BoardF :=
  fun r c => if r < SIZE ∧ c < SIZE ∧ ¬(marks r c = 2) then EMPTY else board r c

/-- Player identifier (the source's `randomUUID()` strings, abstracted). -/
abbrev PId := ℕ

/-- Room join code (the source's 6-digit strings, abstracted). -/
abbrev Code := ℕ

/-- Connection identifier (`ws.id`). -/
abbrev CId := ℕ

/-- Room phase. -/
inductive Phase where
  | placing
  | battle
  | gameover
deriving DecidableEq

/-- A player's per-room state.  The source's `createdAt` timestamp on the
room and the `id` stored inside the player object are carried only for
display; `pid` embeds the latter. -/
structure Player where
  pid : PId
  board : BoardF
  ships : List Ship
  marks : BoardF
  ready : Bool

/-- One room.  `players` is keyed by player id with JavaScript-object
key order (insertion order, assignment replaces in place); the source's
unused `createdAt` field is omitted. -/
structure Room where
  phase : Phase
  turn : Option PId
  winner : Option PId
  players : List (PId × Player)

/-- A connection's binding (`ws.room`, `ws.playerId`). -/
structure Conn where
  room : Option Code
  playerId : Option PId

/-- Global server state: the room registry and all connections. -/
structure World where
  rooms : List (Code × Room)
  conns : List (CId × Conn)

/-- Association-list lookup (JS `Map.get` / object indexing). -/
def alookup {α β : Type} [DecidableEq α] (l : List (α × β)) (k : α) : Option β :=
  (l.find? fun e => decide (e.1 = k)).map (·.2)

/-- Association-list insert-or-replace with JS `Map.set` / object-assign
semantics: an existing key keeps its position, a new key is appended. -/
def aset {α β : Type} [DecidableEq α] (l : List (α × β)) (k : α) (v : β) :
    List (α × β) :=
  match l with
  | [] => [(k, v)]
  | e :: t => if e.1 = k then (k, v) :: t else e :: aset t k v

/-- Apply `f` to the first list element satisfying `p`, the embedding of
mutating the object returned by `Array.prototype.find`. -/
def updateFirst {α : Type} (p : α → Bool) (f : α → α) : List α → List α
  | [] => []
  | x :: t => if p x then f x :: t else x :: updateFirst p f t

/-- The source's `otherPlayerId`: the first player key different from
`pid` (`pid` may be null, in which case the first key wins). -/
def otherPlayerId (room : Room) (pid : Option PId) : Option PId :=
  (room.players.map (·.1)).find? fun q => decide (some q ≠ pid)

/-- Ship summary sent in `ROOM_STATE` (`{id, length, hits}`). -/
structure ShipView where
  sid : Int
  slen : ℕ
  shits : List (ℕ × ℕ)

/-- Per-player block of a `ROOM_STATE` message. -/
structure PlayerView where
  pvId : PId
  pvBoard : BoardF
  pvMarks : BoardF
  pvShips : List ShipView
  pvReady : Bool

/-- The `ROOM_STATE` payload (`roomStateFor`). -/
structure StateView where
  svCode : Option Code
  svPhase : Phase
  svTurn : Option PId
  svWinner : Option PId
  svMe : Option PlayerView
  svOpp : Option PlayerView

/-- Error kinds of the `ERROR` signal. -/
inductive ErrKind where
  | noSuchRoom
  | roomFull
  | badFleet
deriving DecidableEq

/-- Outbound messages. -/
inductive Out where
  | roomCreated (code : Code)
  | joined (code : Code) (pid : PId)
  | errMsg (e : ErrKind)
  | roomState (v : StateView)

/-- Ship summaries for a `ROOM_STATE` block. -/
def shipViews (ss : List Ship) : List ShipView :=
  ss.map fun s => ⟨s.id, s.length, s.hits⟩

/-- The source's `roomStateFor`: the requester's own data unmasked, the
opponent's board passed through `maskOpponentBoard` against the
requester's marks (an absent requester-player masks everything, matching
`me?.marks` being undefined). -/
def roomStateFor (conn : Conn) (room : Room) : StateView :=
  let meId := conn.playerId
  let oppId := otherPlayerId room meId
  let me := meId.bind (alookup room.players)
  { svCode := conn.room
    svPhase := room.phase
    svTurn := room.turn
    svWinner := room.winner
    svMe := meId.bind fun mid => me.map fun m =>
      ⟨mid, m.board, m.marks, shipViews m.ships, m.ready⟩
    svOpp := oppId.bind fun oid => (alookup room.players oid).map fun o =>
      ⟨oid,
       maskOpponentBoard o.board (match me with | some m => m.marks | none => emptyBoardF),
       o.marks, shipViews o.ships, o.ready⟩ }

/-- The source's `broadcastRoom`: a `ROOM_STATE` view for every connection
bound to `code`, in client order. -/
def broadcastRoom (w : World) (code : Code) : List (CId × Out) :=
  match alookup w.rooms code with
  | none => []
  | some room =>
    (w.conns.filter fun e => decide (e.2.room = some code)).map fun e =>
      (e.1, Out.roomState (roomStateFor e.2 room))

/-- Inbound actions.  Each constructor carries the nondeterministic inputs
the source draws for it: the fresh room code, the fresh player id, and the
`Math.random()` coin choosing the first turn. -/
inductive Action where
  | createRoom (code : Code)
  | joinRoom (code : Code) (newPid : PId)
  | placeFleet (payload : Option (List (List Int))) (rdy : Bool) (coin : Bool)
  | fire (r c : Int)
  | requestState

/-- The source's `getRoom`, also returning the code for broadcasting. -/
def getRoomOf (w : World) (conn : Conn) : Option (Code × Room) :=
  conn.room.bind fun code => (alookup w.rooms code).map fun rm => (code, rm)

/-- Connection state of `cid` (a connection that never appeared behaves as
unbound, like a fresh socket). -/
def connOf (w : World) (cid : CId) : Conn :=
  (alookup w.conns cid).getD ⟨none, none⟩

/-- `CREATE_ROOM`: register a fresh room under `code` (silently
overwriting a colliding live code, as the source's `Map.set` does) and
acknowledge.  The creating connection is not bound to the room. -/
def stepCreate (w : World) (cid : CId) (code : Code) : World × List (CId × Out) :=
  ({ w with rooms := aset w.rooms code ⟨Phase.placing, none, none, []⟩ },
   [(cid, Out.roomCreated code)])

/-- A newly joined player: empty board, no ships, empty marks, not ready. -/
def freshPlayer (pid : PId) : Player := ⟨pid, emptyBoardF, [], emptyBoardF, false⟩

/-- `JOIN_ROOM` (lines 288–311): reject an unknown code or a full room,
otherwise allocate a fresh player, bind the connection to it, acknowledge
and broadcast.  No check of the connection's previous binding is made. -/
def stepJoin (w : World) (cid : CId) (code : Code) (npid : PId) :
    World × List (CId × Out) :=
  match alookup w.rooms code with
  | none => (w, [(cid, Out.errMsg ErrKind.noSuchRoom)])
  | some room =>
    if room.players.length ≥ 2 then (w, [(cid, Out.errMsg ErrKind.roomFull)])
    else
      let room' := { room with players := aset room.players npid (freshPlayer npid) }
      let w' : World := { rooms := aset w.rooms code room',
                          conns := aset w.conns cid ⟨some code, some npid⟩ }
      (w', (cid, Out.joined code npid) :: broadcastRoom w' code)

/-- `PLACE_FLEET` (lines 313–336): only in phase `placing` for a bound
player; a sanitizer rejection signals `BAD_FLEET` and changes nothing; a
success stores the canonical board/fleet, sets the ready flag, broadcasts,
and, when both seats are occupied and ready, starts the battle with a
random first turn and broadcasts again. -/
def stepPlace (w : World) (cid : CId) (payload : Option (List (List Int)))
    (rdy : Bool) (coin : Bool) : World × List (CId × Out) :=
  let conn := connOf w cid
  match getRoomOf w conn with
  | none => (w, [])
  | some (code, room) =>
    if room.phase ≠ Phase.placing then (w, [])
    else
      match conn.playerId with
      | none => (w, [])
      | some pid =>
        match alookup room.players pid with
        | none => (w, [])
        | some p =>
          match sanitizeFleet payload with
          | none => (w, [(cid, Out.errMsg ErrKind.badFleet)])
          | some clean =>
            let p' := { p with board := clean.1, ships := clean.2, ready := rdy }
            let room1 := { room with players := aset room.players pid p' }
            let w1 := { w with rooms := aset w.rooms code room1 }
            let out1 := broadcastRoom w1 code
            let ids := room1.players.map (·.1)
            if ids.length = 2 ∧ room1.players.all (fun e => e.2.ready) then
              let room2 :=
                { room1 with phase := Phase.battle, turn := some (ids.getD (if coin then 1 else 0) 0) }
              let w2 := { w1 with rooms := aset w1.rooms code room2 }
              (w2, out1 ++ broadcastRoom w2 code)
            else (w1, out1)

/-- Clamp a fired coordinate into `[0, 9]` (`clamp(~~n, 0, SIZE-1)`;
`~~` is the identity on integers). -/
def clamp9 (x : Int) : ℕ := (max 0 (min 9 x)).toNat

/-- `FIRE` (lines 338–376): only in phase `battle` when the sender holds
the turn and an opponent exists; an already-marked target is a silent
no-op; a miss marks 3 and passes the turn; a hit marks 2, records the hit
on the struck ship (deduplicated), then either ends the game — phase
`gameover`, winner the firer, `turn` left untouched — or passes the turn.
If a nonzero board cell has no matching ship the source throws after the
marks write, so only that write survives and nothing is broadcast. -/
def stepFire (w : World) (cid : CId) (rIn cIn : Int) : World × List (CId × Out) :=
  let conn := connOf w cid
  match getRoomOf w conn with
  | none => (w, [])
  | some (code, room) =>
    if room.phase ≠ Phase.battle then (w, [])
    else if room.turn ≠ conn.playerId then (w, [])
    else
      match conn.playerId with
      | none => (w, [])
      | some pid =>
        match alookup room.players pid with
        | none => (w, [])
        | some me =>
          match otherPlayerId room (some pid) with
          | none => (w, [])
          | some oppId =>
            match alookup room.players oppId with
            | none => (w, [])
            | some opp =>
              let r := clamp9 rIn
              let c := clamp9 cIn
              if me.marks r c = 2 ∨ me.marks r c = 3 then (w, [])
              else
                let cellId := opp.board r c
                if cellId = EMPTY then
                  let me' := { me with marks := bset me.marks r c 3 }
                  let room' :=
                    { room with players := aset room.players pid me', turn := some oppId }
                  let w' := { w with rooms := aset w.rooms code room' }
                  (w', broadcastRoom w' code)
                else
                  let me' := { me with marks := bset me.marks r c 2 }
                  match opp.ships.find? (fun s => s.id == cellId) with
                  | none =>
                    let room' := { room with players := aset room.players pid me' }
                    ({ w with rooms := aset w.rooms code room' }, [])
                  | some _ =>
                    let addHit := fun (s : Ship) =>
                      if (r, c) ∈ s.hits then s else { s with hits := s.hits ++ [(r, c)] }
                    let ships' := updateFirst (fun s => s.id == cellId) addHit opp.ships
                    let opp' := { opp with ships := ships' }
                    let players' := aset (aset room.players pid me') oppId opp'
                    let allSunk := ships'.all fun s => s.hits.length == s.length
                    let room' :=
                      if allSunk then
                        { room with players := players', phase := Phase.gameover, winner := some pid }
                      else
                        { room with players := players', turn := some oppId }
                    let w' := { w with rooms := aset w.rooms code room' }
                    (w', broadcastRoom w' code)

/-- `REQUEST_STATE` (lines 378–382): read-only, answers only the sender. -/
def stepRequest (w : World) (cid : CId) : World × List (CId × Out) :=
  let conn := connOf w cid
  match getRoomOf w conn with
  | none => (w, [])
  | some (_, room) => (w, [(cid, Out.roomState (roomStateFor conn room))])

/-- One inbound message, dispatched as the source's `switch`. -/
def step (w : World) (cid : CId) (a : Action) : World × List (CId × Out) :=
  match a with
  | .createRoom code => stepCreate w cid code
  | .joinRoom code npid => stepJoin w cid code npid
  | .placeFleet payload rdy coin => stepPlace w cid payload rdy coin
  | .fire r c => stepFire w cid r c
  | .requestState => stepRequest w cid

/-- Run a script of inbound messages. -/
def runActs (w : World) : List (CId × Action) → World
  | [] => w
  | (cid, a) :: t => runActs (step w cid a).1 t

/-- The empty server state. -/
def initWorld : World := ⟨[], []⟩

/-! ### Per-connection rate limiter (`rateLimiter`, lines 94–105) -/

/-- `RATE_LIMIT_WINDOW_MS`. -/
def RATE_WINDOW : ℕ := 1000

/-- `RATE_LIMIT_MAX`. -/
def RATE_MAX : ℕ := 15

/-- One call of the limiter's `ok()` on a message at time `t`: the state is
`(windowStart, count)`; a message more than `RATE_WINDOW` after the window
start resets the window to `t` and the count to zero; the message is
accepted iff the incremented count is at most `RATE_MAX`. -/
def rlStep (s : ℕ × ℕ) (t : ℕ) : (ℕ × ℕ) × Bool :=
  let s' := if ((t : Int) - (s.1 : Int)) > (RATE_WINDOW : Int) then (t, 0) else s
  ((s'.1, s'.2 + 1), decide (s'.2 + 1 ≤ RATE_MAX))

/-- Run the limiter over a list of message timestamps, recording for each
message its timestamp, the window start in force when it was processed,
and whether it was accepted. -/
def runRL (s : ℕ × ℕ) : List ℕ → List (ℕ × ℕ × Bool)
  | [] => []
  | t :: ts =>
    let r := rlStep s t
    (t, r.1.1, r.2) :: runRL r.1 ts

/-- Number of accepted messages processed under window start `w`. -/
def acceptedWithWindow (w : ℕ) (tr : List (ℕ × ℕ × Bool)) : ℕ :=
  (tr.filter fun e => decide (e.2.1 = w) && e.2.2).length

/-- Number of accepted messages with timestamp in `[lo, hi]`. -/
def acceptedWithin (lo hi : ℕ) (tr : List (ℕ × ℕ × Bool)) : ℕ :=
  (tr.filter fun e => decide (lo ≤ e.1 ∧ e.1 ≤ hi) && e.2.2).length

/-! ### Abstract valid placements (the premise of the sanitizer's
acceptance property) -/

/-- An abstract ship of a claimed placement: an identifier and a straight
run of `len` cells starting at `(row, col)`, horizontal or vertical. -/
structure AShip where
  aid : Int
  row : ℕ
  col : ℕ
  len : ℕ
  horiz : Bool
deriving DecidableEq

/-- The cells of an abstract ship, in reading order. -/
def cellsOf (s : AShip) : List (ℕ × ℕ) :=
  if s.horiz then (List.range s.len).map fun j => (s.row, s.col + j)
  else (List.range s.len).map fun j => (s.row + j, s.col)

/-- The first cell of a ship in row-major order. -/
def startOf (s : AShip) : ℕ × ℕ := (s.row, s.col)

/-- Row-major index of a cell. -/
def rmIdx (p : ℕ × ℕ) : ℕ := 10 * p.1 + p.2

/-- The ship's run lies inside the 10×10 grid. -/
def inBoundsA (s : AShip) : Prop :=
  if s.horiz then s.row < 10 ∧ s.col + s.len ≤ 10 else s.row + s.len ≤ 10 ∧ s.col < 10

/-- A valid placement: positive pairwise-distinct identifiers, straight
in-bounds runs, pairwise disjoint cells, and run lengths forming the
multiset `{5,4,3,3,2}` (hence exactly five ships, each of length ≥ 2). -/
def ValidPlacement (P : List AShip) : Prop :=
  (∀ s ∈ P, 0 < s.aid) ∧
  (P.map (·.aid)).Nodup ∧
  (∀ s ∈ P, inBoundsA s) ∧
  P.Pairwise (fun a b => ∀ p ∈ cellsOf a, p ∉ cellsOf b) ∧
  (P.map (·.len)).Perm wantedLens

/-- The ship covering a cell, if any. -/
def coverOf (P : List AShip) (r c : ℕ) : Option AShip :=
  P.find? fun s => decide ((r, c) ∈ cellsOf s)

/-- The identifier written at a cell by a placement. -/
def idAtP (P : List AShip) (r c : ℕ) : Int :=
  match coverOf P r c with
  | some s => s.aid
  | none => 0

/-- The 10×10 grid submission encoding a placement. -/
def boardOfP (P : List AShip) : List (List Int) :=
  (List.range 10).map fun r => (List.range 10).map fun c => idAtP P r c

/-- The `Ship` record the scan produces for an abstract ship. -/
def toShip (s : AShip) : Ship := ⟨s.aid, s.len, cellsOf s, []⟩

/-- Stable sort of a placement by ascending identifier. -/
def sortById (P : List AShip) : List AShip :=
  isortLe (fun a b => decide (a.aid ≤ b.aid)) P

/-- The visited matrix after the scan has passed the first `k` positions:
exactly the cells of ships whose start lies before position `k`. -/
def visAt (P : List AShip) (k : ℕ) : Vis :=
  fun x y => P.any fun s => decide (rmIdx (startOf s) < k) && decide ((x, y) ∈ cellsOf s)

/-- The ships whose start lies before position `k`, in placement order. -/
def startedShips (P : List AShip) (k : ℕ) : List AShip :=
  P.filter fun s => decide (rmIdx (startOf s) < k)

/-! ### The room-state invariant -/

/-- Phase/turn/winner coupling actually maintained by the server: `turn`
is set iff the phase is not `placing` (it is set in `battle` and stays
set, equal to the winner, in `gameover`); `winner` is set iff the phase is
`gameover`. -/
def roomInv (rm : Room) : Prop :=
  (rm.turn ≠ none ↔ rm.phase ≠ Phase.placing) ∧
  (rm.winner ≠ none ↔ rm.phase = Phase.gameover)

/-! ### Concrete inputs used by witnesses and counterexamples -/

/-- A canonical valid fleet grid: five horizontal ships in rows 0, 2, 4,
6, 8 with lengths 5, 4, 3, 3, 2. -/
def goodB : List (List Int) :=
  [[1,1,1,1,1,0,0,0,0,0],
   [0,0,0,0,0,0,0,0,0,0],
   [2,2,2,2,0,0,0,0,0,0],
   [0,0,0,0,0,0,0,0,0,0],
   [3,3,3,0,0,0,0,0,0,0],
   [0,0,0,0,0,0,0,0,0,0],
   [4,4,4,0,0,0,0,0,0,0],
   [0,0,0,0,0,0,0,0,0,0],
   [5,5,0,0,0,0,0,0,0,0],
   [0,0,0,0,0,0,0,0,0,0]]

/-- The abstract placement that `goodB` encodes. -/
def goodP : List AShip :=
  [⟨1, 0, 0, 5, true⟩, ⟨2, 2, 0, 4, true⟩, ⟨3, 4, 0, 3, true⟩,
   ⟨4, 6, 0, 3, true⟩, ⟨5, 8, 0, 2, true⟩]

/-- A grid with an L-shaped run of identifier 1 (cells (0,0), (0,1),
(1,0)); the other four ships are straight. -/
def lB : List (List Int) :=
  [[1,1,0,0,0,0,0,0,0,0],
   [1,0,0,0,0,0,0,0,0,0],
   [2,2,2,2,0,0,0,0,0,0],
   [0,0,0,0,0,0,0,0,0,0],
   [3,3,3,3,3,0,0,0,0,0],
   [0,0,0,0,0,0,0,0,0,0],
   [4,4,4,0,0,0,0,0,0,0],
   [0,0,0,0,0,0,0,0,0,0],
   [5,5,0,0,0,0,0,0,0,0],
   [0,0,0,0,0,0,0,0,0,0]]

/-- A grid in which identifier 1 occurs as two disjoint straight runs (a
length-5 run in row 0 and a length-4 run in row 2) while the run-length
multiset is still exactly `{5,4,3,3,2}`. -/
def dupB : List (List Int) :=
  [[1,1,1,1,1,0,0,0,0,0],
   [0,0,0,0,0,0,0,0,0,0],
   [1,1,1,1,0,0,0,0,0,0],
   [0,0,0,0,0,0,0,0,0,0],
   [2,2,2,0,0,0,0,0,0,0],
   [0,0,0,0,0,0,0,0,0,0],
   [3,3,3,0,0,0,0,0,0,0],
   [0,0,0,0,0,0,0,0,0,0],
   [4,4,0,0,0,0,0,0,0,0],
   [0,0,0,0,0,0,0,0,0,0]]

/-- A grid in which identifier 5 occurs as two disjoint straight runs and
the extracted lengths are `{5,4,3,3,2,2}` — six runs. -/
def dup6B : List (List Int) :=
  [[1,1,1,1,1,0,0,0,0,0],
   [0,0,0,0,0,0,0,0,0,0],
   [2,2,2,2,0,0,0,0,0,0],
   [0,0,0,0,0,0,0,0,0,0],
   [3,3,3,0,0,0,0,0,0,0],
   [0,0,0,0,0,0,0,0,0,0],
   [4,4,4,0,0,0,0,0,0,0],
   [0,0,0,0,0,0,0,0,0,0],
   [5,5,0,0,0,0,0,0,0,0],
   [0,0,0,0,0,5,5,0,0,0]]

/-- The six runs the scan extracts from `dup6B`. -/
def dup6Ships : List Ship :=
  [⟨1, 5, [(0,0),(0,1),(0,2),(0,3),(0,4)], []⟩,
   ⟨2, 4, [(2,0),(2,1),(2,2),(2,3)], []⟩,
   ⟨3, 3, [(4,0),(4,1),(4,2)], []⟩,
   ⟨4, 3, [(6,0),(6,1),(6,2)], []⟩,
   ⟨5, 2, [(8,0),(8,1)], []⟩,
   ⟨5, 2, [(9,5),(9,6)], []⟩]

/-- Player 10's 17 targets: every ship cell of `goodB`. -/
def hitCells : List (ℕ × ℕ) :=
  [(0,0),(0,1),(0,2),(0,3),(0,4),(2,0),(2,1),(2,2),(2,3),
   (4,0),(4,1),(4,2),(6,0),(6,1),(6,2),(8,0),(8,1)]

/-- Player 20's 16 filler targets, all empty cells of `goodB`. -/
def missCells : List (ℕ × ℕ) :=
  [(1,0),(1,1),(1,2),(1,3),(1,4),(1,5),(1,6),(1,7),(1,8),(1,9),
   (3,0),(3,1),(3,2),(3,3),(3,4),(3,5)]

/-- Alternate the two players' shots, player 10 of connection 1 first. -/
def interleave : List (ℕ × ℕ) → List (ℕ × ℕ) → List (CId × Action)
  | [], _ => []
  | h :: _, [] => [(1, Action.fire h.1 h.2)]
  | h :: ht, m :: mt =>
    (1, Action.fire h.1 h.2) :: (2, Action.fire m.1 m.2) :: interleave ht mt

/-- A complete game: connection 1 creates room 7 and joins as player 10,
connection 2 joins as player 20, both submit `goodB` ready, the coin gives
player 10 the first turn, then the players alternate until player 10 has
hit all 17 ship cells and wins. -/
def gameScript : List (CId × Action) :=
  [(1, Action.createRoom 7),
   (1, Action.joinRoom 7 10),
   (2, Action.joinRoom 7 20),
   (1, Action.placeFleet (some goodB) true false),
   (2, Action.placeFleet (some goodB) true false)]
  ++ interleave hitCells missCells

/-- The timestamps refuting the rolling-window reading: the limiter is
created at time 0; 15 messages arrive at `t = 1000` (still the initial
window) and one more at `t = 1001` (which starts a fresh window). -/
def rlTs : List ℕ := List.replicate 15 1000 ++ [1001]

/-- A battle-phase room one hit away from the end: player 1 (bound to
connection 5) holds the turn and has already hit cell (0,0) of player 2's
single length-2 ship. -/
def p1Battle : Player :=
  ⟨1, emptyBoardF, [⟨1, 2, [(0,0),(0,1)], []⟩], bset emptyBoardF 0 0 2, true⟩

/-- Player 2 of the battle-phase witness room: a length-2 ship at (0,0)
and (0,1), cell (0,0) already struck. -/
def p2Battle : Player :=
  ⟨2, bset (bset emptyBoardF 0 0 1) 0 1 1, [⟨1, 2, [(0,0),(0,1)], [(0,0)]⟩],
   emptyBoardF, true⟩

/-- The battle-phase witness room. -/
def roomBattle : Room := ⟨Phase.battle, some 1, none, [(1, p1Battle), (2, p2Battle)]⟩

/-- A world holding `roomBattle` as room 7, with connection 5 bound to
player 1. -/
def wBattle : World := ⟨[(7, roomBattle)], [(5, ⟨some 7, some 1⟩)]⟩

/-- A placing-phase room with one player, bound to connection 6. -/
def wPlacing : World :=
  ⟨[(8, ⟨Phase.placing, none, none, [(1, freshPlayer 1)]⟩)], [(6, ⟨some 8, some 1⟩)]⟩

/-- A malformed fleet grid: only nine rows. -/
def nineRows : List (List Int) := List.replicate 9 (List.replicate 10 0)

/-- A one-player room (code 9) whose sole player 1 is bound to connection
3 — the connection that is about to join the same room a second time. -/
def wJoin : World :=
  ⟨[(9, ⟨Phase.placing, none, none, [(1, freshPlayer 1)]⟩)], [(3, ⟨some 9, some 1⟩)]⟩

/-! ## Association-list lemmas -/

theorem mem_aset {α β : Type} [DecidableEq α] {l : List (α × β)} {k : α} {v : β}
    {e : α × β} (h : e ∈ aset l k v) : e = (k, v) ∨ e ∈ l := by
  induction l with
  | nil =>
    simp only [aset, List.mem_singleton] at h
    exact Or.inl h
  | cons x t ih =>
    simp only [aset] at h
    split at h
    · rcases List.mem_cons.mp h with h1 | h1
      · exact Or.inl h1
      · exact Or.inr (List.mem_cons_of_mem _ h1)
    · rcases List.mem_cons.mp h with h1 | h1
      · exact Or.inr (h1 ▸ List.mem_cons_self _ _)
      · rcases ih h1 with h2 | h2
        · exact Or.inl h2
        · exact Or.inr (List.mem_cons_of_mem _ h2)

theorem alookup_mem {α β : Type} [DecidableEq α] {l : List (α × β)} {k : α} {v : β}
    (h : alookup l k = some v) : (k, v) ∈ l := by
  unfold alookup at h
  cases hf : l.find? (fun e => decide (e.1 = k)) with
  | none => rw [hf] at h; exact absurd h (by simp)
  | some e =>
    rw [hf] at h
    simp only [Option.map_some', Option.some.injEq] at h
    have hm := List.mem_of_find?_eq_some hf
    have hp := List.find?_some hf
    simp only [decide_eq_true_eq] at hp
    obtain ⟨a, b⟩ := e
    simp only at hp h
    subst hp h
    exact hm

theorem alookup_aset_self {α β : Type} [DecidableEq α] (l : List (α × β)) (k : α)
    (v : β) : alookup (aset l k v) k = some v := by
  induction l with
  | nil => simp [aset, alookup]
  | cons x t ih =>
    by_cases hx : x.1 = k
    · simp [aset, hx, alookup]
    · simp only [aset, if_neg hx, alookup] at ih ⊢
      rw [List.find?_cons_of_neg _ (by simpa using hx)]
      exact ih

theorem alookup_aset_ne {α β : Type} [DecidableEq α] (l : List (α × β)) (k k' : α)
    (v : β) (h : k' ≠ k) : alookup (aset l k v) k' = alookup l k' := by
  induction l with
  | nil => simp [aset, alookup, Ne.symm h]
  | cons x t ih =>
    by_cases hx : x.1 = k
    · simp only [aset, if_pos hx, alookup]
      rw [List.find?_cons_of_neg _ (by simpa using Ne.symm h),
        List.find?_cons_of_neg _ (by simpa using hx ▸ Ne.symm h)]
    · simp only [aset, if_neg hx, alookup] at ih ⊢
      by_cases hx' : x.1 = k'
      · rw [List.find?_cons_of_pos _ (by simpa using hx'),
          List.find?_cons_of_pos _ (by simpa using hx')]
      · rw [List.find?_cons_of_neg _ (by simpa using hx'),
          List.find?_cons_of_neg _ (by simpa using hx')]
        exact ih

theorem aset_fresh {α β : Type} [DecidableEq α] (l : List (α × β)) (k : α) (v : β)
    (h : k ∉ l.map (·.1)) : aset l k v = l ++ [(k, v)] := by
  induction l with
  | nil => simp [aset]
  | cons x t ih =>
    simp only [List.map_cons, List.mem_cons] at h
    push_neg at h
    simp only [aset, if_neg (Ne.symm h.1), List.cons_append, List.cons.injEq, true_and]
    exact ih h.2

/-! ## C9 — opponent-board projection -/

/-- C9: at every in-range cell, the projected opponent board equals the
true board value exactly when the requester's marks grid records a
confirmed hit (value 2) there, and the empty value 0 otherwise, regardless
of the board's true content at unrevealed cells. -/
theorem mask_reveals_iff_hit (board marks : BoardF) (r c : ℕ)
    (hr : r < SIZE) (hc : c < SIZE) :
    maskOpponentBoard board marks r c = if marks r c = 2 then board r c else EMPTY := by
  unfold maskOpponentBoard
  by_cases h : marks r c = 2
  · simp [h]
  · simp [hr, hc, h]

theorem mask_reveals_iff_hit_witness :
    maskOpponentBoard (fun _ _ => 7) (bset emptyBoardF 0 0 2) 0 0 =
      if (bset emptyBoardF 0 0 2) 0 0 = 2 then (fun (_ _ : ℕ) => (7 : Int)) 0 0
      else EMPTY :=
  mask_reveals_iff_hit (fun _ _ => 7) (bset emptyBoardF 0 0 2) 0 0 (by decide) (by decide)

/-! ## C6 — rejected fleet submission is atomic -/

/-- C6: a `PLACE_FLEET` handled in phase `placing` for a bound player
whose payload the sanitizer rejects emits exactly the `BAD_FLEET` error to
the sender and leaves the whole world — in particular the player's stored
board, ships and ready flag — unchanged. -/
theorem place_fleet_reject_atomic (w : World) (cid : CId)
    (payload : Option (List (List Int))) (rdy coin : Bool) (code : Code)
    (room : Room) (pid : PId) (p : Player)
    (hconn : connOf w cid = ⟨some code, some pid⟩)
    (hroom : alookup w.rooms code = some room)
    (hphase : room.phase = Phase.placing)
    (hp : alookup room.players pid = some p)
    (hbad : sanitizeFleet payload = none) :
    stepPlace w cid payload rdy coin = (w, [(cid, Out.errMsg ErrKind.badFleet)]) := by
  simp [stepPlace, getRoomOf, hconn, hroom, hphase, hp, hbad]

theorem place_fleet_reject_atomic_witness :
    stepPlace wPlacing 6 (some nineRows) true false =
      (wPlacing, [(6, Out.errMsg ErrKind.badFleet)]) :=
  place_fleet_reject_atomic wPlacing 6 (some nineRows) true false 8 _ 1 (freshPlayer 1)
    rfl rfl rfl rfl rfl

/-! ## C7 — firing at an already-marked cell is a no-op -/

/-- C7: a `FIRE` by the turn holder in phase `battle` at a clamped
coordinate the firer has already marked as hit (2) or miss (3) changes
nothing at all — the world is returned untouched and nothing is sent. -/
theorem fire_marked_noop (w : World) (cid : CId) (rIn cIn : Int) (code : Code)
    (room : Room) (pid oppId : PId) (me opp : Player)
    (hconn : connOf w cid = ⟨some code, some pid⟩)
    (hroom : alookup w.rooms code = some room)
    (hphase : room.phase = Phase.battle)
    (hturn : room.turn = some pid)
    (hme : alookup room.players pid = some me)
    (hopp : otherPlayerId room (some pid) = some oppId)
    (hoppP : alookup room.players oppId = some opp)
    (hmarked : me.marks (clamp9 rIn) (clamp9 cIn) = 2 ∨
               me.marks (clamp9 rIn) (clamp9 cIn) = 3) :
    stepFire w cid rIn cIn = (w, []) := by
  simp [stepFire, getRoomOf, hconn, hroom, hphase, hturn, hme, hopp, hoppP, hmarked]

theorem fire_marked_noop_witness : stepFire wBattle 5 0 0 = (wBattle, []) :=
  fire_marked_noop wBattle 5 0 0 7 roomBattle 1 2 p1Battle p2Battle
    rfl rfl rfl rfl rfl rfl rfl (Or.inl (by decide))

/-! ## C5 — the winning hit -/

/-- C5 (amended): when the turn holder fires a fresh hit after which every
opponent ship has as many recorded hits as cells, the room moves to phase
`gameover` with the firing player as winner, and `turn` is left unchanged
(it still holds the firing player's identifier — the source never clears
it). -/
theorem fire_winning_hit (w : World) (cid : CId) (rIn cIn : Int) (code : Code)
    (room : Room) (pid oppId : PId) (me opp : Player) (sh : Ship)
    (hconn : connOf w cid = ⟨some code, some pid⟩)
    (hroom : alookup w.rooms code = some room)
    (hphase : room.phase = Phase.battle)
    (hturn : room.turn = some pid)
    (hme : alookup room.players pid = some me)
    (hopp : otherPlayerId room (some pid) = some oppId)
    (hoppP : alookup room.players oppId = some opp)
    (hfresh : ¬(me.marks (clamp9 rIn) (clamp9 cIn) = 2 ∨
                me.marks (clamp9 rIn) (clamp9 cIn) = 3))
    (hcell : opp.board (clamp9 rIn) (clamp9 cIn) ≠ EMPTY)
    (hship : opp.ships.find? (fun s => s.id == opp.board (clamp9 rIn) (clamp9 cIn)) =
      some sh)
    (hsunk : (updateFirst (fun s => s.id == opp.board (clamp9 rIn) (clamp9 cIn))
        (fun s => if (clamp9 rIn, clamp9 cIn) ∈ s.hits then s
                  else { s with hits := s.hits ++ [(clamp9 rIn, clamp9 cIn)] })
        opp.ships).all (fun s => s.hits.length == s.length) = true) :
    ∃ room', alookup (stepFire w cid rIn cIn).1.rooms code = some room' ∧
      room'.phase = Phase.gameover ∧ room'.winner = some pid ∧
      room'.turn = room.turn := by
  have hsunk' : ∀ x ∈ updateFirst (fun s => s.id == opp.board (clamp9 rIn) (clamp9 cIn))
      (fun s => if (clamp9 rIn, clamp9 cIn) ∈ s.hits then s
                else { s with hits := s.hits ++ [(clamp9 rIn, clamp9 cIn)] })
      opp.ships, x.hits.length = x.length := by
    simpa using hsunk
  simp [stepFire, getRoomOf, hconn, hroom, hphase, hturn, hme, hopp, hoppP,
    hfresh, hcell, hship]
  rw [if_pos hsunk']
  exact ⟨_, alookup_aset_self _ _ _, rfl, rfl, rfl⟩

set_option maxRecDepth 20000 in
/-- C5 (counterexample): firing the winning hit on the concrete
battle-phase room leaves `turn` holding the firing player's identifier —
`some 1`, not `none` — so the claimed clearing of `turn` does not happen. -/
theorem fire_win_turn_stays :
    (alookup (stepFire wBattle 5 0 1).1.rooms 7).map
      (fun rm => (rm.phase, rm.winner, rm.turn)) =
    some (Phase.gameover, some 1, some 1) := by decide

theorem fire_winning_hit_witness :
    ∃ room', alookup (stepFire wBattle 5 0 1).1.rooms 7 = some room' ∧
      room'.phase = Phase.gameover ∧ room'.winner = some 1 ∧
      room'.turn = roomBattle.turn :=
  fire_winning_hit wBattle 5 0 1 7 roomBattle 1 2 p1Battle p2Battle
    ⟨1, 2, [(0,0),(0,1)], [(0,0)]⟩
    rfl rfl rfl rfl rfl rfl rfl (by decide) (by decide) (by decide) (by decide)

/-! ## C10 — JOIN_ROOM never checks the sender's binding -/

/-- C10: any `JOIN_ROOM` naming a live room with fewer than two occupants
succeeds — with no hypothesis whatsoever about the sender's existing
binding — allocating a fresh player appended to the room, rebinding the
connection to the new player (silently abandoning any previous one), and
touching no other room, so the abandoned player stays in its old room. -/
theorem join_always_allocates (w : World) (cid : CId) (code : Code) (npid : PId)
    (room : Room)
    (hroom : alookup w.rooms code = some room)
    (hcount : room.players.length < 2)
    (hfresh : npid ∉ room.players.map (·.1)) :
    ∃ w', stepJoin w cid code npid =
        (w', (cid, Out.joined code npid) :: broadcastRoom w' code) ∧
      alookup w'.rooms code =
        some { room with players := room.players ++ [(npid, freshPlayer npid)] } ∧
      connOf w' cid = ⟨some code, some npid⟩ ∧
      ∀ code', code' ≠ code → alookup w'.rooms code' = alookup w.rooms code' := by
  have hlt : ¬ room.players.length ≥ 2 := by omega
  refine ⟨⟨aset w.rooms code { room with players := aset room.players npid (freshPlayer npid) },
           aset w.conns cid ⟨some code, some npid⟩⟩, ?_, ?_, ?_, ?_⟩
  · simp [stepJoin, hroom, hlt]
  · rw [aset_fresh _ _ _ hfresh, alookup_aset_self]
  · simp [connOf, alookup_aset_self]
  · intro code' hne
    exact alookup_aset_ne _ _ _ _ hne

/-! ## C1 — phase/turn/winner coupling over all reachable states -/

theorem getRoomOf_lookup {w : World} {conn : Conn} {code : Code} {room : Room}
    (h : getRoomOf w conn = some (code, room)) : alookup w.rooms code = some room := by
  unfold getRoomOf at h
  cases hcr : conn.room with
  | none => rw [hcr] at h; exact absurd h (by simp)
  | some code' =>
    rw [hcr] at h
    simp only [Option.some_bind] at h
    cases hal : alookup w.rooms code' with
    | none => rw [hal] at h; exact absurd h (by simp)
    | some rm =>
      rw [hal] at h
      simp only [Option.map_some', Option.some.injEq, Prod.mk.injEq] at h
      obtain ⟨h1, h2⟩ := h
      subst h1
      subst h2
      exact hal

theorem roomInv_create (w : World) (cid : CId) (code : Code)
    (h : ∀ e ∈ w.rooms, roomInv e.2) :
    ∀ e ∈ (stepCreate w cid code).1.rooms, roomInv e.2 := by
  intro e he
  simp only [stepCreate] at he
  rcases mem_aset he with rfl | he'
  · exact ⟨by simp, by simp⟩
  · exact h e he'

theorem roomInv_join (w : World) (cid : CId) (code : Code) (npid : PId)
    (h : ∀ e ∈ w.rooms, roomInv e.2) :
    ∀ e ∈ (stepJoin w cid code npid).1.rooms, roomInv e.2 := by
  intro e he
  unfold stepJoin at he
  cases hr : alookup w.rooms code with
  | none => rw [hr] at he; exact h e he
  | some room =>
    rw [hr] at he
    try dsimp only at he
    split at he
    · exact h e he
    · try dsimp only at he
      rcases mem_aset he with rfl | he'
      · exact ⟨(h _ (alookup_mem hr)).1, (h _ (alookup_mem hr)).2⟩
      · exact h e he'

theorem roomInv_place (w : World) (cid : CId) (payload : Option (List (List Int)))
    (rdy coin : Bool) (h : ∀ e ∈ w.rooms, roomInv e.2) :
    ∀ e ∈ (stepPlace w cid payload rdy coin).1.rooms, roomInv e.2 := by
  intro e he
  simp only [stepPlace] at he
  cases hg : getRoomOf w (connOf w cid) with
  | none => rw [hg] at he; exact h e he
  | some pr =>
    obtain ⟨code, room⟩ := pr
    rw [hg] at he
    try dsimp only at he
    have hmem := alookup_mem (getRoomOf_lookup hg)
    split at he
    · exact h e he
    next hphase =>
      have hphase' : room.phase = Phase.placing := not_not.mp (by simpa using hphase)
      have hw : room.winner = none := by
        have hi := (h _ hmem).2
        rw [hphase'] at hi
        simpa using hi
      split at he
      · exact h e he
      · split at he
        · exact h e he
        · split at he
          · exact h e he
          · try dsimp only at he
            split at he
            next hready =>
              try dsimp only at he
              rcases mem_aset he with rfl | he'
              · exact ⟨by simp, by simp [hw]⟩
              · rcases mem_aset he' with rfl | he''
                · exact ⟨(h _ hmem).1, (h _ hmem).2⟩
                · exact h e he''
            next hnready =>
              try dsimp only at he
              rcases mem_aset he with rfl | he'
              · exact ⟨(h _ hmem).1, (h _ hmem).2⟩
              · exact h e he'
theorem roomInv_fire (w : World) (cid : CId) (rIn cIn : Int)
    (h : ∀ e ∈ w.rooms, roomInv e.2) :
    ∀ e ∈ (stepFire w cid rIn cIn).1.rooms, roomInv e.2 := by
  intro e he
  simp only [stepFire] at he
  cases hg : getRoomOf w (connOf w cid) with
  | none => rw [hg] at he; exact h e he
  | some pr =>
    obtain ⟨code, room⟩ := pr
    rw [hg] at he
    try dsimp only at he
    have hmem := alookup_mem (getRoomOf_lookup hg)
    split at he
    · exact h e he
    next hphase =>
      have hphase' : room.phase = Phase.battle := not_not.mp (by simpa using hphase)
      have hturn : room.turn ≠ none := by
        have hi := (h _ hmem).1
        rw [hphase'] at hi
        simpa using hi.mpr (by simp)
      have hw : room.winner = none := by
        have hi := (h _ hmem).2
        rw [hphase'] at hi
        simpa using hi
      split at he
      · exact h e he
      · split at he
        · exact h e he
        · split at he
          · exact h e he
          · split at he
            · exact h e he
            · split at he
              · exact h e he
              · split at he
                · exact h e he
                · split at he
                  · -- miss
                    try dsimp only at he
                    rcases mem_aset he with rfl | he'
                    · exact ⟨by simp [hphase'], by simp [hw, hphase']⟩
                    · exact h e he'
                  · split at he
                    · -- ship lookup failed
                      try dsimp only at he
                      rcases mem_aset he with rfl | he'
                      · exact ⟨(h _ hmem).1, (h _ hmem).2⟩
                      · exact h e he'
                    · -- hit
                      try dsimp only at he
                      split at he
                      · -- all sunk
                        try dsimp only at he
                        rcases mem_aset he with rfl | he'
                        · exact ⟨by simpa using hturn, by simp⟩
                        · exact h e he'
                      · -- pass turn
                        try dsimp only at he
                        rcases mem_aset he with rfl | he'
                        · exact ⟨by simp [hphase'], by simp [hw, hphase']⟩
                        · exact h e he'
theorem roomInv_request (w : World) (cid : CId)
    (h : ∀ e ∈ w.rooms, roomInv e.2) :
    ∀ e ∈ (stepRequest w cid).1.rooms, roomInv e.2 := by
  intro e he
  simp only [stepRequest] at he
  cases hg : getRoomOf w (connOf w cid) with
  | none => rw [hg] at he; exact h e he
  | some pr => rw [hg] at he; exact h e he

theorem roomInv_step (w : World) (cid : CId) (a : Action)
    (h : ∀ e ∈ w.rooms, roomInv e.2) :
    ∀ e ∈ (step w cid a).1.rooms, roomInv e.2 := by
  cases a with
  | createRoom code => exact roomInv_create w cid code h
  | joinRoom code npid => exact roomInv_join w cid code npid h
  | placeFleet payload rdy coin => exact roomInv_place w cid payload rdy coin h
  | fire r c => exact roomInv_fire w cid r c h
  | requestState => exact roomInv_request w cid h

/-- C1 (amended): in every state reachable by any script of actions from a
world whose rooms satisfy the coupling, every room still satisfies it:
`turn` is non-null iff the phase is not `placing` — so `turn` is set in
`battle` but, contrary to the claim, remains set in `gameover`, where it
still holds the winner — and `winner` is non-null iff the phase is
`gameover`. -/
theorem reachable_roomInv (w : World) (acts : List (CId × Action))
    (h : ∀ e ∈ w.rooms, roomInv e.2) :
    ∀ e ∈ (runActs w acts).rooms, roomInv e.2 := by
  induction acts generalizing w with
  | nil => exact h
  | cons ca t ih =>
    obtain ⟨cid, a⟩ := ca
    exact ih _ (roomInv_step w cid a h)

set_option maxRecDepth 100000 in
theorem reachable_roomInv_witness :
    (runActs initWorld gameScript).rooms.Forall (fun e => roomInv e.2) :=
  List.forall_iff_forall_mem.mpr
    (reachable_roomInv initWorld gameScript (by intro e he; exact absurd he (by simp [initWorld])))

set_option maxRecDepth 100000 in
/-- C1 (counterexample): running the complete concrete game drives room 7
into phase `gameover` with `turn = some 10` — a non-null `turn` outside
phase `battle`, refuting the claimed "turn is non-null iff the phase is
battle" on a reachable state. -/
theorem gameover_turn_not_cleared :
    (alookup (runActs initWorld gameScript).rooms 7).map
      (fun rm => (rm.phase, rm.turn, rm.winner)) =
    some (Phase.gameover, some 10, some 10) := by decide

/-! ## C3 — non-straight same-identifier configurations are rejected -/

/-- Every run recorded by the scan fold is branch-free: the fold state can
only accumulate a ship after its branch check passed, and rejection is
absorbing. -/
theorem scan_ships_branch_free (b : List (List Int)) (ps : List (ℕ × ℕ))
    (st : Option (Vis × List Ship))
    (hst : ∀ v ships, st = some (v, ships) →
      ∀ s ∈ ships, hasBranch b s.id s.cells = false) :
    ∀ v ships, ps.foldl (scanStep b) st = some (v, ships) →
      ∀ s ∈ ships, hasBranch b s.id s.cells = false := by
  induction ps generalizing st with
  | nil => exact hst
  | cons p t ih =>
    intro v ships h
    refine ih _ ?_ v ships h
    intro v' ships' hstep s hs
    cases st with
    | none => exact absurd hstep (by simp [scanStep])
    | some pr =>
      obtain ⟨vis, acc⟩ := pr
      simp only [scanStep] at hstep
      split at hstep
      · cases hstep
        exact hst _ _ rfl s hs
      · split at hstep
        next hbr => exact absurd hstep (by simp)
        next hbr =>
          cases hstep
          rcases List.mem_append.mp hs with h1 | h1
          · exact hst _ _ rfl s h1
          · rcases List.mem_singleton.mp h1 with rfl
            simpa using hbr

/-- C3: a submission in which some extracted run has an in-bounds
orthogonal neighbour carrying the run's identifier without belonging to
the run (an L, T, or any non-straight same-identifier configuration) is
rejected outright: the scan can never return a run with such a neighbour
(first conjunct), and a scan rejection makes `sanitizeFleet` return the
empty result (second conjunct). -/
theorem branch_rejects_submission (b : List (List Int)) :
    (∀ ships, extractShips b = some ships →
      ∀ s ∈ ships, hasBranch b s.id s.cells = false) ∧
    (extractShips b = none → sanitizeFleet (some b) = none) := by
  constructor
  · intro ships hex s hs
    unfold extractShips at hex
    cases hfold : allPos.foldl (scanStep b) (some (fun _ _ => false, [])) with
    | none => rw [hfold] at hex; exact absurd hex (by simp)
    | some pr =>
      rw [hfold] at hex
      obtain ⟨v, acc⟩ := pr
      simp only [Option.map_some', Option.some.injEq] at hex
      subst hex
      refine scan_ships_branch_free b allPos _ ?_ v acc hfold s hs
      intro v0 ships0 h0 s0 hs0
      cases h0
      exact absurd hs0 (List.not_mem_nil s0)
  · intro hex
    unfold sanitizeFleet
    by_cases hv : validBoard b = true
    · simp [hv, hex]
    · simp [hv]

set_option maxRecDepth 20000 in
theorem branch_rejects_submission_witness : sanitizeFleet (some lB) = none :=
  (branch_rejects_submission lB).2 (by decide)

/-! ## C4 — duplicate identifiers forming disjoint runs -/

set_option maxRecDepth 20000 in
/-- C4 (counterexample): in `dupB` the identifier 1 occurs as two disjoint
straight runs (the scan extracts identifier sequence `[1, 1, 2, 3, 4]`),
the run lengths are exactly `{5,4,3,3,2}`, and `sanitizeFleet` accepts the
submission instead of rejecting it. -/
theorem dup_ids_accepted :
    (extractShips dupB).map (fun ss => ss.map (·.id)) = some [1, 1, 2, 3, 4] ∧
    (sanitizeFleet (some dupB)).isSome = true :=
  ⟨by decide, by decide⟩

/-- C4 (amended): duplicate identifiers producing disjoint runs are caught
only by the length-multiset check: whenever the extracted runs' lengths
sorted descending differ from `[5,4,3,3,2]` — as with a submission whose
duplicated identifier yields a sixth run — the submission is rejected. -/
theorem dup_ids_rejected_via_lengths (b : List (List Int)) (ships : List Ship)
    (hex : extractShips b = some ships)
    (hdup : ∃ s1 ∈ ships, ∃ s2 ∈ ships, s1 ≠ s2 ∧ s1.id = s2.id)
    (hlen : sortedLens ships ≠ wantedLens) :
    sanitizeFleet (some b) = none := by
  unfold sanitizeFleet
  by_cases hv : validBoard b = true
  · simp [hv, hex, hlen]
  · simp [hv]

set_option maxRecDepth 20000 in
theorem dup_ids_rejected_via_lengths_witness : sanitizeFleet (some dup6B) = none :=
  dup_ids_rejected_via_lengths dup6B dup6Ships (by decide) (by decide) (by decide)

/-! ## C8 — the rate limiter's window is fixed, not rolling -/

theorem acceptedWithWindow_cons (w t wst : ℕ) (b : Bool) (tr : List (ℕ × ℕ × Bool)) :
    acceptedWithWindow w ((t, wst, b) :: tr) =
      (if wst = w ∧ b = true then 1 else 0) + acceptedWithWindow w tr := by
  simp only [acceptedWithWindow, List.filter_cons]
  by_cases h1 : wst = w <;> by_cases h2 : b = true <;> simp [h1, h2, Nat.add_comm]

theorem runRL_cons_reset (wst cnt t : ℕ) (ts : List ℕ)
    (h : ((t : Int) - (wst : Int)) > (RATE_WINDOW : Int)) :
    runRL (wst, cnt) (t :: ts) = (t, t, decide (1 ≤ RATE_MAX)) :: runRL (t, 1) ts := by
  simp [runRL, rlStep, h]

theorem runRL_cons_keep (wst cnt t : ℕ) (ts : List ℕ)
    (h : ¬ ((t : Int) - (wst : Int)) > (RATE_WINDOW : Int)) :
    runRL (wst, cnt) (t :: ts) =
      (t, wst, decide (cnt + 1 ≤ RATE_MAX)) :: runRL (wst, cnt + 1) ts := by
  simp [runRL, rlStep, h]

theorem rl_window_bound (ts : List ℕ) : ∀ (w c : ℕ),
    List.Sorted (· ≤ ·) ts → (∀ t ∈ ts, w ≤ t) →
    (∀ w', w' < w → acceptedWithWindow w' (runRL (w, c) ts) = 0) ∧
    acceptedWithWindow w (runRL (w, c) ts) ≤ RATE_MAX - min c RATE_MAX ∧
    (∀ w', acceptedWithWindow w' (runRL (w, c) ts) ≤ RATE_MAX) := by
  induction ts with
  | nil =>
    intro w c _ _
    exact ⟨fun _ _ => rfl, by simp [acceptedWithWindow, runRL],
      fun _ => by simp [acceptedWithWindow, runRL]⟩
  | cons t ts ih =>
    intro w c hsort hlb
    have hsort' : List.Sorted (· ≤ ·) ts := hsort.of_cons
    have hlbt : ∀ t' ∈ ts, t ≤ t' := fun t' ht' => (List.sorted_cons.mp hsort).1 t' ht'
    have hwt0 : w ≤ t := hlb t (List.mem_cons_self t ts)
    have hmax : RATE_MAX = 15 := rfl
    by_cases hreset : ((t : Int) - (w : Int)) > (RATE_WINDOW : Int)
    · have hwt : w < t := by
        have hrw : (RATE_WINDOW : Int) = 1000 := rfl
        have : (w : Int) < t := by omega
        exact_mod_cast this
      have ih' := ih t 1 hsort' hlbt
      rw [runRL_cons_reset w c t ts hreset]
      refine ⟨?_, ?_, ?_⟩
      · intro w' hw'
        rw [acceptedWithWindow_cons]
        rw [if_neg (fun hc => absurd hc.1 (by omega)), Nat.zero_add]
        exact ih'.1 w' (by omega)
      · rw [acceptedWithWindow_cons]
        rw [if_neg (fun hc => absurd hc.1 (by omega)), Nat.zero_add]
        have := ih'.1 w hwt
        omega
      · intro w'
        rw [acceptedWithWindow_cons]
        by_cases hww : w' = t
        · subst hww
          have h2 := ih'.2.1
          have hmin : min 1 RATE_MAX = 1 := rfl
          rw [hmin] at h2
          split
          · omega
          · omega
        · rw [if_neg (fun hc => hww hc.1.symm), Nat.zero_add]
          exact ih'.2.2 w'
    · have ih' := ih w (c + 1) hsort' (fun t' ht' => le_trans hwt0 (hlbt t' ht'))
      rw [runRL_cons_keep w c t ts hreset]
      refine ⟨?_, ?_, ?_⟩
      · intro w' hw'
        rw [acceptedWithWindow_cons]
        rw [if_neg (fun hc => absurd hc.1 (by omega)), Nat.zero_add]
        exact ih'.1 w' hw'
      · rw [acceptedWithWindow_cons]
        have h2 := ih'.2.1
        by_cases hacc : c + 1 ≤ RATE_MAX
        · rw [if_pos ⟨rfl, by simpa using hacc⟩]
          omega
        · rw [if_neg (fun hc => hacc (by simpa using hc.2))]
          omega
      · intro w'
        rw [acceptedWithWindow_cons]
        by_cases hww : w' = w
        · subst hww
          have h2 := ih'.2.1
          by_cases hacc : c + 1 ≤ RATE_MAX
          · rw [if_pos ⟨rfl, by simpa using hacc⟩]
            omega
          · rw [if_neg (fun hc => hacc (by simpa using hc.2))]
            omega
        · rw [if_neg (fun hc => hww hc.1.symm), Nat.zero_add]
          exact ih'.2.2 w'

/-- C8 (amended): over any nondecreasing timestamp sequence beginning no
earlier than the limiter's creation time `w0`, at most `RATE_MAX` = 15
messages are accepted within each fixed window of the limiter — a window
starts at creation, or at the first message arriving more than
`RATE_WINDOW` ms after the current window's start.  Excess messages within
a window are dropped (the handler returns without any effect), not queued
or delayed; within a rolling 1000 ms interval up to twice `RATE_MAX`
messages can be accepted, as the counterexample shows. -/
theorem rate_fixed_window_bound (w0 : ℕ) (ts : List ℕ)
    (hsort : List.Sorted (· ≤ ·) ts) (hlb : ∀ t ∈ ts, w0 ≤ t) (w : ℕ) :
    acceptedWithWindow w (runRL (w0, 0) ts) ≤ RATE_MAX :=
  (rl_window_bound ts w0 0 hsort hlb).2.2 w

theorem rate_fixed_window_bound_witness :
    acceptedWithWindow 1001 (runRL (0, 0) rlTs) ≤ RATE_MAX :=
  rate_fixed_window_bound 0 rlTs (by decide) (by decide) 1001

/-- C8 (counterexample): with the limiter created at time 0, the fifteen
messages at `t = 1000` and the sixteenth at `t = 1001` are all accepted —
16 accepted messages inside the rolling interval `[1000, 2000]`, whose
length is exactly `RATE_WINDOW`, exceeding the claimed bound
`RATE_MAX` = 15. -/
theorem rate_rolling_window_exceeded :
    acceptedWithin 1000 2000 (runRL (0, 0) rlTs) = 16 ∧
    2000 - 1000 = RATE_WINDOW ∧ RATE_MAX < 16 :=
  ⟨by decide, by decide, by decide⟩

theorem join_always_allocates_witness :
    ∃ w', stepJoin wJoin 3 9 2 =
        (w', (3, Out.joined 9 2) :: broadcastRoom w' 9) ∧
      alookup w'.rooms 9 =
        some { (⟨Phase.placing, none, none, [(1, freshPlayer 1)]⟩ : Room) with
               players := [(1, freshPlayer 1)] ++ [(2, freshPlayer 2)] } ∧
      connOf w' 3 = ⟨some 9, some 2⟩ ∧
      ∀ code', code' ≠ 9 → alookup w'.rooms code' = alookup wJoin.rooms code' :=
  join_always_allocates wJoin 3 9 2 ⟨Phase.placing, none, none, [(1, freshPlayer 1)]⟩
    rfl (by decide) (by decide)

end Battleship

namespace Battleship

/-! ## C2 — stable-sort lemmas -/

theorem insertLe_perm {α : Type} (le : α → α → Bool) (x : α) (l : List α) :
    (insertLe le x l).Perm (x :: l) := by
  induction l with
  | nil => exact List.Perm.refl _
  | cons y t ih =>
    unfold insertLe
    split
    · exact List.Perm.refl _
    · exact (ih.cons y).trans (List.Perm.swap x y t)

theorem mem_insertLe {α : Type} {le : α → α → Bool} {x q : α} {l : List α}
    (h : q ∈ insertLe le x l) : q = x ∨ q ∈ l :=
  List.mem_cons.mp ((insertLe_perm le x l).mem_iff.mp h)

theorem isortLe_perm {α : Type} (le : α → α → Bool) (l : List α) :
    (isortLe le l).Perm l := by
  suffices h : ∀ (l acc : List α),
      (l.foldl (fun a x => insertLe le x a) acc).Perm (acc ++ l) by
    simpa using h l []
  intro l
  induction l with
  | nil => intro acc; simp
  | cons x t ih =>
    intro acc
    have h1 := ih (insertLe le x acc)
    refine (List.foldl_cons _ _ ▸ h1).trans ?_
    have h2 : (insertLe le x acc ++ t).Perm ((x :: acc) ++ t) :=
      (insertLe_perm le x acc).append_right t
    exact h2.trans List.perm_middle.symm

theorem insertLe_pairwise {α : Type} (le : α → α → Bool)
    (htot : ∀ a b, le a b = true ∨ le b a = true)
    (htrans : ∀ a b c, le a b = true → le b c = true → le a c = true)
    (x : α) (l : List α) (h : l.Pairwise (fun a b => le a b = true)) :
    (insertLe le x l).Pairwise (fun a b => le a b = true) := by
  induction l with
  | nil => simp [insertLe]
  | cons y t ih =>
    rcases List.pairwise_cons.mp h with ⟨hy, ht⟩
    unfold insertLe
    split
    next hcond =>
      rw [Bool.and_eq_true, Bool.not_eq_true'] at hcond
      refine List.pairwise_cons.mpr ⟨?_, h⟩
      intro b hb
      rcases List.mem_cons.mp hb with rfl | hb'
      · exact hcond.1
      · exact htrans x y b hcond.1 (hy b hb')
    next hcond =>
      simp only [Bool.and_eq_true, Bool.not_eq_true', not_and, Bool.not_eq_false] at hcond
      refine List.pairwise_cons.mpr ⟨?_, ih ht⟩
      intro b hb
      rcases mem_insertLe hb with rfl | hb'
      · rcases htot b y with hxy | hyx
        · exact hcond hxy
        · exact hyx
      · exact hy b hb'

theorem isortLe_pairwise {α : Type} (le : α → α → Bool)
    (htot : ∀ a b, le a b = true ∨ le b a = true)
    (htrans : ∀ a b c, le a b = true → le b c = true → le a c = true)
    (l : List α) :
    (isortLe le l).Pairwise (fun a b => le a b = true) := by
  suffices h : ∀ (l acc : List α), acc.Pairwise (fun a b => le a b = true) →
      (l.foldl (fun a x => insertLe le x a) acc).Pairwise (fun a b => le a b = true) by
    exact h l [] (by simp)
  intro l
  induction l with
  | nil => intro acc h; simpa using h
  | cons x t ih =>
    intro acc h
    exact ih _ (insertLe_pairwise le htot htrans x acc h)


/-! ## C2 — sorted-permutation uniqueness and renumbering -/

theorem sortedLens_of_perm (ships : List Ship)
    (h : (ships.map (·.length)).Perm wantedLens) : sortedLens ships = wantedLens := by
  have hperm : (sortedLens ships).Perm wantedLens := (isortLe_perm _ _).trans h
  have hsorted : (sortedLens ships).Pairwise (fun a b : ℕ => b ≤ a) := by
    have hp := isortLe_pairwise (fun a b : ℕ => decide (b ≤ a))
      (fun a b => by rcases Nat.le_total b a with h1 | h1 <;> simp [h1])
      (fun a b c h1 h2 => by simp at h1 h2 ⊢; omega)
      (ships.map (·.length))
    exact hp.imp (fun hab => by simpa using hab)
  haveI : IsAntisymm ℕ (fun a b : ℕ => b ≤ a) := ⟨fun a b h1 h2 => Nat.le_antisymm h2 h1⟩
  exact List.eq_of_perm_of_sorted hperm hsorted (by decide)

theorem sorted_ships_unique (l1 l2 : List Ship) (hp : l1.Perm l2)
    (hs1 : l1.Pairwise (fun a b => a.id ≤ b.id))
    (hs2 : l2.Pairwise (fun a b => a.id ≤ b.id))
    (hnd : (l1.map (·.id)).Nodup) : l1 = l2 := by
  haveI : IsAntisymm Ship (fun a b => a.id < b.id) :=
    ⟨fun a b h1 h2 => absurd (lt_trans h1 h2) (lt_irrefl _)⟩
  have hnd2 : (l2.map (·.id)).Nodup := ((hp.map (·.id)).nodup_iff).mp hnd
  have hne1 : l1.Pairwise (fun a b => a.id ≠ b.id) := (List.pairwise_map).mp hnd
  have hne2 : l2.Pairwise (fun a b => a.id ≠ b.id) := (List.pairwise_map).mp hnd2
  have hlt1 : l1.Pairwise (fun a b => a.id < b.id) :=
    (hs1.and hne1).imp (fun hab => lt_of_le_of_ne hab.1 hab.2)
  have hlt2 : l2.Pairwise (fun a b => a.id < b.id) :=
    (hs2.and hne2).imp (fun hab => lt_of_le_of_ne hab.1 hab.2)
  exact List.eq_of_perm_of_sorted hp hlt1 hlt2

theorem enumFrom_renum_map_id (l : List Ship) : ∀ n : ℕ,
    (((List.enumFrom n l).map fun q => { q.2 with id := (q.1 : Int) + 1 }).map (·.id)) =
      (List.range' n l.length).map (fun i : ℕ => (i : Int) + 1) := by
  induction l with
  | nil => intro n; rfl
  | cons x t ih =>
    intro n
    simp only [List.enumFrom, List.map_cons, List.length_cons, List.range'_succ]
    exact congrArg _ (ih (n + 1))

theorem enumFrom_renum_map_cells (l : List Ship) : ∀ n : ℕ,
    (((List.enumFrom n l).map fun q => { q.2 with id := (q.1 : Int) + 1 }).map (·.cells)) =
      l.map (·.cells) := by
  induction l with
  | nil => intro n; rfl
  | cons x t ih =>
    intro n
    simp only [List.enumFrom, List.map_cons, List.cons.injEq, true_and]
    exact ih (n + 1)

theorem enumFrom_renum_map_length (l : List Ship) : ∀ n : ℕ,
    (((List.enumFrom n l).map fun q => { q.2 with id := (q.1 : Int) + 1 }).map (·.length)) =
      l.map (·.length) := by
  induction l with
  | nil => intro n; rfl
  | cons x t ih =>
    intro n
    simp only [List.enumFrom, List.map_cons, List.cons.injEq, true_and]
    exact ih (n + 1)

/-! ## C2 — board-rebuild evaluation -/

theorem writeCells_eval (cs : List (ℕ × ℕ)) (i : Int) : ∀ (bd : BoardF) (r c : ℕ),
    (cs.foldl (fun b2 p => bset b2 p.1 p.2 i) bd) r c =
      if (r, c) ∈ cs then i else bd r c := by
  induction cs with
  | nil => intro bd r c; simp
  | cons q t ih =>
    intro bd r c
    rw [List.foldl_cons, ih]
    by_cases hm : (r, c) ∈ t
    · simp [hm]
    · by_cases hq : (r, c) = q
      · subst hq
        simp [hm, bset]
      · have hne : ¬(r = q.1 ∧ c = q.2) := by
          intro hc
          exact hq (Prod.ext hc.1 hc.2)
        simp [hm, hq, bset, hne]

theorem buildBoard_eval (ss : List Ship)
    (hdisj : ss.Pairwise (fun a b => ∀ p ∈ a.cells, p ∉ b.cells)) :
    (∀ s ∈ ss, ∀ p ∈ s.cells, buildBoard ss p.1 p.2 = s.id) ∧
    (∀ r c : ℕ, (∀ s ∈ ss, (r, c) ∉ s.cells) → buildBoard ss r c = 0) := by
  suffices h : ∀ (ss : List Ship) (bd : BoardF),
      ss.Pairwise (fun a b => ∀ p ∈ a.cells, p ∉ b.cells) →
      (∀ s ∈ ss, ∀ p ∈ s.cells,
        (ss.foldl (fun b2 s2 => s2.cells.foldl (fun b3 p2 => bset b3 p2.1 p2.2 s2.id) b2) bd) p.1 p.2 = s.id) ∧
      (∀ r c : ℕ, (∀ s ∈ ss, (r, c) ∉ s.cells) →
        (ss.foldl (fun b2 s2 => s2.cells.foldl (fun b3 p2 => bset b3 p2.1 p2.2 s2.id) b2) bd) r c = bd r c) by
    have h2 := h ss emptyBoardF hdisj
    exact ⟨h2.1, fun r c hnone => h2.2 r c hnone⟩
  intro ss
  induction ss with
  | nil => intro bd _; exact ⟨fun s hs => absurd hs (List.not_mem_nil s), fun r c _ => rfl⟩
  | cons s0 t ih =>
    intro bd hdj
    rcases List.pairwise_cons.mp hdj with ⟨hhead, htail⟩
    have iht := ih (s0.cells.foldl (fun b3 p2 => bset b3 p2.1 p2.2 s0.id) bd) htail
    constructor
    · intro s hs p hp
      rcases List.mem_cons.mp hs with rfl | hs'
      · rw [List.foldl_cons, iht.2 p.1 p.2 (fun b hb hpb => hhead b hb p hp hpb)]
        rw [writeCells_eval]
        simp [hp]
      · rw [List.foldl_cons]
        exact iht.1 s hs' p hp
    · intro r c hnone
      rw [List.foldl_cons, iht.2 r c (fun b hb => hnone b (List.mem_cons_of_mem _ hb))]
      rw [writeCells_eval]
      simp [hnone s0 (List.mem_cons_self s0 t)]


/-! ## C2 — facts about the encoded board -/

theorem cellsOf_length (s : AShip) : (cellsOf s).length = s.len := by
  unfold cellsOf
  split <;> simp

theorem startOf_mem_cells (s : AShip) (h : 1 ≤ s.len) : startOf s ∈ cellsOf s := by
  unfold cellsOf startOf
  split
  · exact List.mem_map.mpr ⟨0, by simpa using h, by simp⟩
  · exact List.mem_map.mpr ⟨0, by simpa using h, by simp⟩

theorem cells_bounds {P : List AShip} (hP : ValidPlacement P) :
    ∀ s ∈ P, ∀ p ∈ cellsOf s, p.1 < 10 ∧ p.2 < 10 := by
  intro s hs p hp
  have hb := hP.2.2.1 s hs
  by_cases hh : s.horiz
  · simp only [cellsOf, if_pos hh] at hp
    simp only [inBoundsA, if_pos hh] at hb
    obtain ⟨j, hj, rfl⟩ := List.mem_map.mp hp
    simp only [List.mem_range] at hj
    exact ⟨hb.1, by omega⟩
  · simp only [cellsOf, if_neg hh] at hp
    simp only [inBoundsA, if_neg hh] at hb
    obtain ⟨j, hj, rfl⟩ := List.mem_map.mp hp
    simp only [List.mem_range] at hj
    exact ⟨by omega, hb.2⟩

theorem find?_eq_some_of_unique {α : Type} {p : α → Bool} {l : List α} {a : α}
    (ha : a ∈ l) (hpa : p a = true) (huniq : ∀ x ∈ l, p x = true → x = a) :
    l.find? p = some a := by
  induction l with
  | nil => cases ha
  | cons x t ih =>
    by_cases hx : p x = true
    · rw [List.find?_cons_of_pos _ hx, huniq x (List.mem_cons_self x t) hx]
    · rw [List.find?_cons_of_neg _ (by simpa using hx)]
      rcases List.mem_cons.mp ha with rfl | ha'
      · exact absurd hpa hx
      · exact ih ha' (fun y hy' py => huniq y (List.mem_cons_of_mem _ hy') py)

theorem disjoint_of_ne {P : List AShip} (hP : ValidPlacement P) :
    ∀ s ∈ P, ∀ x ∈ P, s ≠ x → ∀ p ∈ cellsOf s, p ∉ cellsOf x := by
  have hsym : Symmetric (fun a b : AShip => ∀ p ∈ cellsOf a, p ∉ cellsOf b) := by
    intro a b hab p hpb hpa
    exact hab p hpa hpb
  intro s hs x hx hne
  exact hP.2.2.2.1.forall hsym hs hx hne

theorem cover_unique {P : List AShip} (hP : ValidPlacement P) :
    ∀ s ∈ P, ∀ x ∈ P, ∀ q : ℕ × ℕ, q ∈ cellsOf s → q ∈ cellsOf x → x = s := by
  intro s hs x hx q hqs hqx
  by_contra hne
  exact disjoint_of_ne hP x hx s hs hne q hqx hqs

theorem coverOf_cells {P : List AShip} (hP : ValidPlacement P) (s : AShip) (hs : s ∈ P)
    (q : ℕ × ℕ) (hq : q ∈ cellsOf s) : coverOf P q.1 q.2 = some s := by
  unfold coverOf
  refine find?_eq_some_of_unique hs (by simpa using hq) ?_
  intro x hx hpx
  exact cover_unique hP s hs x hx q hq (by simpa using hpx)

theorem idAtP_some {P : List AShip} {r c : ℕ} {x : AShip}
    (h : coverOf P r c = some x) : idAtP P r c = x.aid := by
  unfold idAtP
  rw [h]

theorem idAtP_none {P : List AShip} {r c : ℕ}
    (h : coverOf P r c = none) : idAtP P r c = 0 := by
  unfold idAtP
  rw [h]

theorem idAtP_of_mem {P : List AShip} (hP : ValidPlacement P) (s : AShip) (hs : s ∈ P)
    (q : ℕ × ℕ) (hq : q ∈ cellsOf s) : idAtP P q.1 q.2 = s.aid :=
  idAtP_some (coverOf_cells hP s hs q hq)

theorem idAtP_zero_of_nomem (P : List AShip) (r c : ℕ)
    (h : ∀ s ∈ P, (r, c) ∉ cellsOf s) : idAtP P r c = 0 := by
  unfold idAtP coverOf
  rw [List.find?_eq_none.mpr (fun x hx => by simpa using h x hx)]

theorem bget_boardOfP (P : List AShip) (r c : ℕ) (hr : r < 10) (hc : c < 10) :
    bget (boardOfP P) r c = idAtP P r c := by
  unfold bget boardOfP
  rw [List.getD_eq_getElem?_getD, List.getD_eq_getElem?_getD,
    List.getElem?_map, List.getElem?_range hr]
  simp only [Option.map_some', Option.getD_some]
  rw [List.getElem?_map, List.getElem?_range hc]
  simp

theorem bget_boardOfP_oob (P : List AShip) (r c : ℕ) (h : ¬(r < 10 ∧ c < 10)) :
    bget (boardOfP P) r c = 0 := by
  unfold bget boardOfP
  by_cases hr : r < 10
  · have hc : ¬ c < 10 := fun hc => h ⟨hr, hc⟩
    rw [List.getD_eq_getElem?_getD, List.getD_eq_getElem?_getD,
      List.getElem?_map, List.getElem?_range hr]
    simp only [Option.map_some', Option.getD_some]
    rw [List.getElem?_eq_none (by simpa using Nat.le_of_not_lt hc)]
    rfl
  · have h0 : (List.range 10)[r]? = none :=
      List.getElem?_eq_none (by simpa using Nat.le_of_not_lt hr)
    rw [List.getD_eq_getElem?_getD, List.getD_eq_getElem?_getD, List.getElem?_map, h0]
    rfl

theorem bget_eq_aid_iff {P : List AShip} (hP : ValidPlacement P) (s : AShip)
    (hs : s ∈ P) (r c : ℕ) :
    bget (boardOfP P) r c = s.aid ↔ (r, c) ∈ cellsOf s := by
  have hpos : 0 < s.aid := hP.1 s hs
  constructor
  · intro h
    by_cases hb : r < 10 ∧ c < 10
    · rw [bget_boardOfP P r c hb.1 hb.2] at h
      cases hcov : coverOf P r c with
      | none => rw [idAtP_none hcov] at h; omega
      | some x =>
        rw [idAtP_some hcov] at h
        have hxP : x ∈ P := List.mem_of_find?_eq_some hcov
        have hxq : (r, c) ∈ cellsOf x := by simpa using List.find?_some hcov
        have hxs : x = s := List.inj_on_of_nodup_map hP.2.1 hxP hs h
        exact hxs ▸ hxq
    · rw [bget_boardOfP_oob P r c hb] at h
      omega
  · intro h
    have hb := cells_bounds hP s hs (r, c) h
    rw [bget_boardOfP P r c hb.1 hb.2]
    exact idAtP_of_mem hP s hs (r, c) h


/-! ## C2 — walk lemmas -/

theorem len_bounds {P : List AShip} (hP : ValidPlacement P) (s : AShip) (hs : s ∈ P) :
    2 ≤ s.len ∧ s.len ≤ 5 := by
  have hm : s.len ∈ wantedLens :=
    hP.2.2.2.2.mem_iff.mp (List.mem_map.mpr ⟨s, hs, rfl⟩)
  simp only [wantedLens, List.mem_cons, List.mem_singleton] at hm
  rcases hm with h | h | h | h | h | h
  · omega
  · omega
  · omega
  · omega
  · omega
  · cases h

theorem walkH_run {P : List AShip} (hP : ValidPlacement P) (s : AShip) (hs : s ∈ P)
    (hh : s.horiz = true) (vis : Vis)
    (hvis : ∀ p ∈ cellsOf s, vis p.1 p.2 = false) :
    ∀ (fuel i : ℕ), i ≤ s.len → s.len - i ≤ fuel →
      walkH (boardOfP P) s.aid vis s.row (s.col + i) fuel =
        (List.range (s.len - i)).map (fun j => (s.row, s.col + i + j)) := by
  intro fuel
  induction fuel with
  | zero =>
    intro i hi hfuel
    have h0 : s.len - i = 0 := Nat.le_zero.mp hfuel
    rw [h0]
    rfl
  | succ fuel ih =>
    intro i hi hfuel
    by_cases hilen : i < s.len
    · have hmem : (s.row, s.col + i) ∈ cellsOf s := by
        unfold cellsOf
        rw [if_pos hh]
        exact List.mem_map.mpr ⟨i, List.mem_range.mpr hilen, rfl⟩
      have hbnd := cells_bounds hP s hs _ hmem
      have h2 : bget (boardOfP P) s.row (s.col + i) = s.aid :=
        (bget_eq_aid_iff hP s hs _ _).mpr hmem
      have h3 := hvis _ hmem
      have hcond : (inb s.row (s.col + i) &&
          (bget (boardOfP P) s.row (s.col + i) == s.aid) &&
          !vis s.row (s.col + i)) = true := by
        simp only [inb, SIZE]
        simp [h2, h3, hbnd.1, hbnd.2]
      simp only [walkH]
      rw [if_pos hcond]
      rw [show s.col + i + 1 = s.col + (i + 1) from by omega]
      rw [ih (i + 1) hilen (by omega)]
      have hlen : s.len - i = (s.len - (i + 1)) + 1 := by omega
      rw [hlen, List.range_succ_eq_map, List.map_cons, List.map_map]
      refine congrArg₂ List.cons (by simp) ?_
      refine List.map_congr_left ?_
      intro j _
      simp only [Function.comp_apply]
      refine congrArg _ ?_
      omega
    · have hieq : i = s.len := by omega
      subst hieq
      have hnm : (s.row, s.col + s.len) ∉ cellsOf s := by
        intro hmem
        unfold cellsOf at hmem
        rw [if_pos hh] at hmem
        obtain ⟨j, hj, hjeq⟩ := List.mem_map.mp hmem
        rw [List.mem_range] at hj
        have hc2 : s.col + j = s.col + s.len := congrArg Prod.snd hjeq
        omega
      have hne : ¬ bget (boardOfP P) s.row (s.col + s.len) = s.aid := by
        intro he
        exact hnm ((bget_eq_aid_iff hP s hs _ _).mp he)
      simp only [walkH]
      rw [if_neg (by simp [hne])]
      simp

theorem walkV_run {P : List AShip} (hP : ValidPlacement P) (s : AShip) (hs : s ∈ P)
    (hh : s.horiz = false) (vis : Vis)
    (hvis : ∀ p ∈ cellsOf s, vis p.1 p.2 = false) :
    ∀ (fuel i : ℕ), i ≤ s.len → s.len - i ≤ fuel →
      walkV (boardOfP P) s.aid vis s.col (s.row + i) fuel =
        (List.range (s.len - i)).map (fun j => (s.row + i + j, s.col)) := by
  intro fuel
  induction fuel with
  | zero =>
    intro i hi hfuel
    have h0 : s.len - i = 0 := Nat.le_zero.mp hfuel
    rw [h0]
    rfl
  | succ fuel ih =>
    intro i hi hfuel
    by_cases hilen : i < s.len
    · have hmem : (s.row + i, s.col) ∈ cellsOf s := by
        unfold cellsOf
        rw [if_neg (by simp [hh])]
        exact List.mem_map.mpr ⟨i, List.mem_range.mpr hilen, rfl⟩
      have hbnd := cells_bounds hP s hs _ hmem
      have h2 : bget (boardOfP P) (s.row + i) s.col = s.aid :=
        (bget_eq_aid_iff hP s hs _ _).mpr hmem
      have h3 := hvis _ hmem
      have hcond : (inb (s.row + i) s.col &&
          (bget (boardOfP P) (s.row + i) s.col == s.aid) &&
          !vis (s.row + i) s.col) = true := by
        simp only [inb, SIZE]
        simp [h2, h3, hbnd.1, hbnd.2]
      simp only [walkV]
      rw [if_pos hcond]
      rw [show s.row + i + 1 = s.row + (i + 1) from by omega]
      rw [ih (i + 1) hilen (by omega)]
      have hlen : s.len - i = (s.len - (i + 1)) + 1 := by omega
      rw [hlen, List.range_succ_eq_map, List.map_cons, List.map_map]
      refine congrArg₂ List.cons (by simp) ?_
      refine List.map_congr_left ?_
      intro j _
      simp only [Function.comp_apply]
      refine congrArg (fun x => (x, s.col)) ?_
      omega
    · have hieq : i = s.len := by omega
      subst hieq
      have hnm : (s.row + s.len, s.col) ∉ cellsOf s := by
        intro hmem
        unfold cellsOf at hmem
        rw [if_neg (by simp [hh])] at hmem
        obtain ⟨j, hj, hjeq⟩ := List.mem_map.mp hmem
        rw [List.mem_range] at hj
        have hc1 : s.row + j = s.row + s.len := congrArg Prod.fst hjeq
        omega
      have hne : ¬ bget (boardOfP P) (s.row + s.len) s.col = s.aid := by
        intro he
        exact hnm ((bget_eq_aid_iff hP s hs _ _).mp he)
      simp only [walkV]
      rw [if_neg (by simp [hne])]
      simp

theorem cellsOf_eq_range_map_h (s : AShip) (hh : s.horiz = true) :
    cellsOf s = (List.range s.len).map (fun j => (s.row, s.col + j)) := by
  unfold cellsOf
  rw [if_pos hh]

theorem cellsOf_eq_range_map_v (s : AShip) (hh : s.horiz = false) :
    cellsOf s = (List.range s.len).map (fun j => (s.row + j, s.col)) := by
  unfold cellsOf
  rw [if_neg (by simp [hh])]


/-! ## C2 — orientation decision and branch-freeness -/

theorem runFrom_cells {P : List AShip} (hP : ValidPlacement P) (s : AShip) (hs : s ∈ P)
    (vis : Vis) (hvis : ∀ p ∈ cellsOf s, vis p.1 p.2 = false) :
    runFrom (boardOfP P) vis s.row s.col s.aid = cellsOf s := by
  have hlen := len_bounds hP s hs
  by_cases hh : s.horiz = true
  · have hmem1 : (s.row, s.col + 1) ∈ cellsOf s := by
      rw [cellsOf_eq_range_map_h s hh]
      exact List.mem_map.mpr ⟨1, List.mem_range.mpr (by omega), rfl⟩
    have hbnd := cells_bounds hP s hs _ hmem1
    have hb1 : bget (boardOfP P) s.row (s.col + 1) = s.aid :=
      (bget_eq_aid_iff hP s hs _ _).mpr hmem1
    unfold runFrom
    rw [if_pos (by simp only [inb, SIZE]; simp [hb1, hbnd.1, hbnd.2])]
    have hw := walkH_run hP s hs hh vis hvis SIZE 0 (by omega)
      (by simp only [SIZE]; omega)
    rw [Nat.add_zero] at hw
    rw [hw, cellsOf_eq_range_map_h s hh, Nat.sub_zero]
  · have hhf : s.horiz = false := by simpa using hh
    have hne : ¬ bget (boardOfP P) s.row (s.col + 1) = s.aid := by
      intro he
      have hm := (bget_eq_aid_iff hP s hs _ _).mp he
      rw [cellsOf_eq_range_map_v s hhf] at hm
      obtain ⟨j, _, hjeq⟩ := List.mem_map.mp hm
      have hsnd : s.col = s.col + 1 := congrArg Prod.snd hjeq
      omega
    have hmem1 : (s.row + 1, s.col) ∈ cellsOf s := by
      rw [cellsOf_eq_range_map_v s hhf]
      exact List.mem_map.mpr ⟨1, List.mem_range.mpr (by omega), rfl⟩
    have hbnd := cells_bounds hP s hs _ hmem1
    have hb1 : bget (boardOfP P) (s.row + 1) s.col = s.aid :=
      (bget_eq_aid_iff hP s hs _ _).mpr hmem1
    unfold runFrom
    rw [if_neg (by simp [hne])]
    rw [if_pos (by simp only [inb, SIZE]; simp [hb1, hbnd.1, hbnd.2])]
    have hw := walkV_run hP s hs hhf vis hvis SIZE 0 (by omega)
      (by simp only [SIZE]; omega)
    rw [Nat.add_zero] at hw
    rw [hw, cellsOf_eq_range_map_v s hhf, Nat.sub_zero]

theorem hasBranch_false {P : List AShip} (hP : ValidPlacement P) (s : AShip)
    (hs : s ∈ P) : hasBranch (boardOfP P) s.aid (cellsOf s) = false := by
  unfold hasBranch
  rw [List.any_eq_false]
  intro p _
  rw [Bool.not_eq_true, List.any_eq_false]
  intro q _
  by_cases h2 : bget (boardOfP P) q.1.toNat q.2.toNat = s.aid
  · have hmem : (q.1.toNat, q.2.toNat) ∈ cellsOf s :=
      (bget_eq_aid_iff hP s hs _ _).mp h2
    have hcont : (cellsOf s).contains (q.1.toNat, q.2.toNat) = true := by
      simpa using hmem
    simp [hcont]
    intro _ _
    exact hmem
  · have hne : (bgetZ (boardOfP P) q.1 q.2 == s.aid) = false := by
      unfold bgetZ
      simpa using h2
    simp [hne]


/-! ## C2 — row-major scan infrastructure -/

theorem rmIdx_lt_100 {p : ℕ × ℕ} (h1 : p.1 < 10) (h2 : p.2 < 10) : rmIdx p < 100 := by
  unfold rmIdx
  omega

theorem rmIdx_inj {p q : ℕ × ℕ} (hp : p.2 < 10) (hq : q.2 < 10)
    (h : rmIdx p = rmIdx q) : p = q := by
  unfold rmIdx at h
  have h1 : p.1 = q.1 := by omega
  have h2 : p.2 = q.2 := by omega
  exact Prod.ext h1 h2

theorem rmIdx_start_le {P : List AShip} (hP : ValidPlacement P) (s : AShip)
    (hs : s ∈ P) (p : ℕ × ℕ) (hp : p ∈ cellsOf s) :
    rmIdx (startOf s) ≤ rmIdx p := by
  by_cases hh : s.horiz = true
  · rw [cellsOf_eq_range_map_h s hh] at hp
    obtain ⟨j, _, rfl⟩ := List.mem_map.mp hp
    unfold rmIdx startOf
    omega
  · have hhf : s.horiz = false := by simpa using hh
    rw [cellsOf_eq_range_map_v s hhf] at hp
    obtain ⟨j, _, rfl⟩ := List.mem_map.mp hp
    unfold rmIdx startOf
    omega

set_option maxRecDepth 40000 in
theorem allPos_drop : ∀ k < 100,
    allPos.drop k = (k / 10, k % 10) :: allPos.drop (k + 1) := by decide

theorem start_bounds {P : List AShip} (hP : ValidPlacement P) (s : AShip)
    (hs : s ∈ P) : (startOf s).1 < 10 ∧ (startOf s).2 < 10 := by
  have h2 : 2 ≤ s.len := (len_bounds hP s hs).1
  exact cells_bounds hP s hs _ (startOf_mem_cells s (by omega))

theorem visAt_true_iff (P : List AShip) (k x y : ℕ) :
    visAt P k x y = true ↔ ∃ s ∈ P, rmIdx (startOf s) < k ∧ (x, y) ∈ cellsOf s := by
  unfold visAt
  rw [List.any_eq_true]
  constructor
  · rintro ⟨s, hs, hdec⟩
    rw [Bool.and_eq_true, decide_eq_true_eq, decide_eq_true_eq] at hdec
    exact ⟨s, hs, hdec.1, hdec.2⟩
  · rintro ⟨s, hs, h1, h2⟩
    exact ⟨s, hs, by rw [Bool.and_eq_true, decide_eq_true_eq, decide_eq_true_eq]
                     exact ⟨h1, h2⟩⟩

theorem visAt_zero (P : List AShip) (x y : ℕ) : visAt P 0 x y = false := by
  unfold visAt
  rw [List.any_eq_false]
  intro s _
  simp

theorem markCells_eval (cs : List (ℕ × ℕ)) : ∀ (v : Vis) (x y : ℕ),
    markCells v cs x y = true ↔ (x, y) ∈ cs ∨ v x y = true := by
  induction cs with
  | nil => intro v x y; simp [markCells]
  | cons q t ih =>
    intro v x y
    unfold markCells
    rw [List.foldl_cons]
    have hstep := ih (fun xx yy => if xx = q.1 ∧ yy = q.2 then true else v xx yy) x y
    unfold markCells at hstep
    rw [hstep]
    by_cases hq : x = q.1 ∧ y = q.2
    · have hxy : (x, y) = q := Prod.ext hq.1 hq.2
      simp [hq, hxy]
    · have hxy : (x, y) ≠ q := fun he => hq ⟨congrArg Prod.fst he, congrArg Prod.snd he⟩
      simp [hq, hxy]

theorem filter_perm_insert {α : Type} (l : List α) (a : α) (p1 p2 : α → Bool)
    (ha : a ∈ l) (hnd : l.Nodup) (hp1 : p1 a = true) (hp2 : p2 a = false)
    (hagree : ∀ x ∈ l, x ≠ a → p1 x = p2 x) :
    (l.filter p1).Perm (a :: l.filter p2) := by
  induction l with
  | nil => cases ha
  | cons x t ih =>
    by_cases hxa : x = a
    · subst hxa
      have hnotin : x ∉ t := (List.nodup_cons.mp hnd).1
      rw [List.filter_cons_of_pos hp1, List.filter_cons_of_neg (by simp [hp2])]
      have heq : t.filter p1 = t.filter p2 :=
        List.filter_congr (fun y hy =>
          hagree y (List.mem_cons_of_mem _ hy) (fun he => hnotin (he ▸ hy)))
      rw [heq]
    · have ha' : a ∈ t := by
        rcases List.mem_cons.mp ha with heq | h
        · exact absurd heq.symm hxa
        · exact h
      have hx12 : p1 x = p2 x :=
        hagree x (List.mem_cons_self x t) hxa
      have ihh := ih ha' (List.nodup_cons.mp hnd).2
        (fun y hy hya => hagree y (List.mem_cons_of_mem _ hy) hya)
      by_cases hx : p1 x = true
      · rw [List.filter_cons_of_pos hx, List.filter_cons_of_pos (hx12 ▸ hx)]
        exact (ihh.cons x).trans (List.Perm.swap a x (t.filter p2))
      · rw [List.filter_cons_of_neg (by simpa using hx),
          List.filter_cons_of_neg (by simpa using (hx12 ▸ hx : ¬ p2 x = true))]
        exact ihh

theorem startedShips_succ_of_nostart (P : List AShip) (k : ℕ)
    (hnostart : ∀ s ∈ P, rmIdx (startOf s) ≠ k) :
    startedShips P (k + 1) = startedShips P k := by
  unfold startedShips
  refine List.filter_congr ?_
  intro s hs
  rw [decide_eq_decide]
  have := hnostart s hs
  omega

theorem visAt_succ_of_nostart (P : List AShip) (k : ℕ)
    (hnostart : ∀ s ∈ P, rmIdx (startOf s) ≠ k) (x y : ℕ) :
    visAt P (k + 1) x y = visAt P k x y := by
  rw [Bool.eq_iff_iff, visAt_true_iff, visAt_true_iff]
  constructor
  · rintro ⟨s, hs, h1, h2⟩
    exact ⟨s, hs, by have := hnostart s hs; omega, h2⟩
  · rintro ⟨s, hs, h1, h2⟩
    exact ⟨s, hs, by omega, h2⟩


/-! ## C2 — the scan recovers the placement -/

theorem scanStep_reduce (b : List (List Int)) (v : Vis) (E : List Ship) (r c : ℕ) :
    scanStep b (some (v, E)) (r, c) =
      if (bget b r c == EMPTY || v r c) = true then some (v, E)
      else if hasBranch b (bget b r c) (runFrom b v r c (bget b r c)) = true then none
      else some (markCells v (runFrom b v r c (bget b r c)),
        E ++ [⟨bget b r c, (runFrom b v r c (bget b r c)).length,
               runFrom b v r c (bget b r c), []⟩]) := rfl

theorem rmIdx_pos_self (k : ℕ) : rmIdx (k / 10, k % 10) = k := by
  unfold rmIdx
  show 10 * (k / 10) + k % 10 = k
  omega

theorem scan_extracts {P : List AShip} (hP : ValidPlacement P) : ∀ (n k : ℕ),
    k + n = 100 →
    ∀ (v : Vis) (E : List Ship), (∀ x y, v x y = visAt P k x y) →
    E.Perm ((startedShips P k).map toShip) →
    ∃ v2 E2,
      (allPos.drop k).foldl (scanStep (boardOfP P)) (some (v, E)) = some (v2, E2) ∧
      E2.Perm (P.map toShip) := by
  intro n
  induction n with
  | zero =>
    intro k hk v E hv hE
    have hk100 : k = 100 := by omega
    subst hk100
    rw [show allPos.drop 100 = [] from rfl]
    refine ⟨v, E, rfl, hE.trans ?_⟩
    have hall : startedShips P 100 = P := by
      unfold startedShips
      refine List.filter_eq_self.mpr ?_
      intro s hs
      have hb := start_bounds hP s hs
      simpa using rmIdx_lt_100 hb.1 hb.2
    rw [hall]
  | succ n ih =>
    intro k hk v E hv hE
    have hk100 : k < 100 := by omega
    rw [allPos_drop k hk100, List.foldl_cons]
    have hp2 : ((k / 10, k % 10) : ℕ × ℕ).2 < 10 := by
      show k % 10 < 10
      omega
    have hstart_of : ∀ s ∈ P, rmIdx (startOf s) = k → startOf s = (k / 10, k % 10) := by
      intro s hs heq
      have hb := start_bounds hP s hs
      exact rmIdx_inj hb.2 hp2 (by rw [heq, rmIdx_pos_self])
    have hstartmem : ∀ s ∈ P, rmIdx (startOf s) = k → (k / 10, k % 10) ∈ cellsOf s := by
      intro s hs heq
      rw [← hstart_of s hs heq]
      exact startOf_mem_cells s (by have := (len_bounds hP s hs).1; omega)
    by_cases hempty : bget (boardOfP P) (k / 10) (k % 10) = 0
    · have hnostart : ∀ s ∈ P, rmIdx (startOf s) ≠ k := by
        intro s hs heq
        have := (bget_eq_aid_iff hP s hs (k / 10) (k % 10)).mpr (hstartmem s hs heq)
        have hpos := hP.1 s hs
        omega
      rw [scanStep_reduce, if_pos (by simp [hempty, EMPTY])]
      refine ih (k + 1) (by omega) v E ?_ ?_
      · intro x y
        rw [hv x y, visAt_succ_of_nostart P k hnostart]
      · rw [startedShips_succ_of_nostart P k hnostart]
        exact hE
    · by_cases hvisp : v (k / 10) (k % 10) = true
      · have hnostart : ∀ s ∈ P, rmIdx (startOf s) ≠ k := by
          intro s hs heq
          rw [hv] at hvisp
          obtain ⟨s', hs', hlt', hmem'⟩ :=
            (visAt_true_iff P k (k / 10) (k % 10)).mp hvisp
          have hss : s' = s :=
            cover_unique hP s hs s' hs' _ (hstartmem s hs heq) hmem'
          subst hss
          omega
        rw [scanStep_reduce, if_pos (by simp [hvisp])]
        refine ih (k + 1) (by omega) v E ?_ ?_
        · intro x y
          rw [hv x y, visAt_succ_of_nostart P k hnostart]
        · rw [startedShips_succ_of_nostart P k hnostart]
          exact hE
      · have hp1 : k / 10 < 10 := by omega
        have hbv : bget (boardOfP P) (k / 10) (k % 10) = idAtP P (k / 10) (k % 10) :=
          bget_boardOfP P _ _ hp1 (by omega)
        obtain ⟨sp, hcov⟩ : ∃ sp, coverOf P (k / 10) (k % 10) = some sp := by
          cases hc : coverOf P (k / 10) (k % 10) with
          | none => exact absurd (hbv.trans (idAtP_none hc)) hempty
          | some x => exact ⟨x, rfl⟩
        have hspP : sp ∈ P := List.mem_of_find?_eq_some hcov
        have hspmem : (k / 10, k % 10) ∈ cellsOf sp := by
          simpa using List.find?_some hcov
        have hi : bget (boardOfP P) (k / 10) (k % 10) = sp.aid :=
          hbv.trans (idAtP_some hcov)
        have hpos := hP.1 sp hspP
        have hunstarted : ¬ rmIdx (startOf sp) < k := by
          intro hlt
          have hvt : visAt P k (k / 10) (k % 10) = true :=
            (visAt_true_iff P k _ _).mpr ⟨sp, hspP, hlt, hspmem⟩
          rw [← hv] at hvt
          exact hvisp hvt
      -- the covering ship starts exactly here
        have hstartk : rmIdx (startOf sp) = k := by
          have hle := rmIdx_start_le hP sp hspP _ hspmem
          rw [rmIdx_pos_self] at hle
          omega
        have hstart := hstart_of sp hspP hstartk
        have hcellsfree : ∀ q ∈ cellsOf sp, v q.1 q.2 = false := by
          intro q hq
          rw [hv]
          by_contra hne
          have hq' : visAt P k q.1 q.2 = true := by
            rcases Bool.eq_false_or_eq_true (visAt P k q.1 q.2) with h | h
            · exact h
            · exact absurd h hne
          obtain ⟨s', hs', hlt', hmem'⟩ := (visAt_true_iff P k q.1 q.2).mp hq'
          have hss : s' = sp :=
            cover_unique hP sp hspP s' hs' (q.1, q.2) (by simpa using hq)
              (by simpa using hmem')
          subst hss
          exact hunstarted hlt'
        have hrun : runFrom (boardOfP P) v (k / 10) (k % 10) sp.aid = cellsOf sp := by
          have h1 : k / 10 = sp.row := (congrArg Prod.fst hstart).symm
          have h2 : k % 10 = sp.col := (congrArg Prod.snd hstart).symm
          rw [h1, h2]
          exact runFrom_cells hP sp hspP v hcellsfree
        have hvfalse : v (k / 10) (k % 10) = false := by
          simpa using hvisp
        rw [scanStep_reduce]
        rw [if_neg (by simp [hi, hvfalse, EMPTY]; omega)]
        rw [hi, hrun, if_neg (by simp [hasBranch_false hP sp hspP])]
        rw [cellsOf_length]
        have hnodupP : P.Nodup := List.Nodup.of_map _ hP.2.1
        have honlysp : ∀ x ∈ P, x ≠ sp → rmIdx (startOf x) ≠ k := by
          intro x hx hne hxk
          exact hne (cover_unique hP sp hspP x hx _ hspmem (hstartmem x hx hxk))
        have hfilperm : (startedShips P (k + 1)).Perm (sp :: startedShips P k) := by
          unfold startedShips
          refine filter_perm_insert P sp _ _ hspP hnodupP ?_ ?_ ?_
          · rw [decide_eq_true_eq]
            omega
          · rw [decide_eq_false_iff_not]
            omega
          · intro x hx hne
            rw [decide_eq_decide]
            have := honlysp x hx hne
            omega
        refine ih (k + 1) (by omega) (markCells v (cellsOf sp))
          (E ++ [⟨sp.aid, sp.len, cellsOf sp, []⟩]) ?_ ?_
        · intro x y
          rw [Bool.eq_iff_iff, markCells_eval, visAt_true_iff]
          constructor
          · rintro (hmem | hvtrue)
            · exact ⟨sp, hspP, by omega, hmem⟩
            · rw [hv] at hvtrue
              obtain ⟨s', hs', hlt', hmem'⟩ := (visAt_true_iff P k x y).mp hvtrue
              exact ⟨s', hs', by omega, hmem'⟩
          · rintro ⟨s', hs', hlt', hmem'⟩
            by_cases hltk : rmIdx (startOf s') < k
            · right
              rw [hv]
              exact (visAt_true_iff P k x y).mpr ⟨s', hs', hltk, hmem'⟩
            · left
              have hk' : rmIdx (startOf s') = k := by omega
              have hss : s' = sp :=
                cover_unique hP sp hspP s' hs' _ hspmem (hstartmem s' hs' hk')
              subst hss
              exact hmem'
        · show (E ++ [toShip sp]).Perm ((startedShips P (k + 1)).map toShip)
          refine ((hE.append_right [toShip sp]).trans
            (List.perm_append_singleton _ _)).trans ?_
          exact (hfilperm.map toShip).symm


/-! ## C2 — assembly -/

theorem idAtP_nonneg {P : List AShip} (hpos : ∀ s ∈ P, 0 < s.aid) (r c : ℕ) :
    0 ≤ idAtP P r c := by
  cases hc : coverOf P r c with
  | none => rw [idAtP_none hc]
  | some x =>
    rw [idAtP_some hc]
    exact le_of_lt (hpos x (List.mem_of_find?_eq_some hc))

theorem validBoard_boardOfP (P : List AShip) (hpos : ∀ s ∈ P, 0 < s.aid) :
    validBoard (boardOfP P) = true := by
  unfold validBoard boardOfP
  simp only [Bool.and_eq_true, beq_iff_eq, List.all_eq_true]
  refine ⟨by simp [SIZE], ?_⟩
  intro row hrow
  obtain ⟨r, _, rfl⟩ := List.mem_map.mp hrow
  refine ⟨by simp [SIZE], ?_⟩
  intro val hval
  obtain ⟨c, _, rfl⟩ := List.mem_map.mp hval
  simpa using idAtP_nonneg hpos r c

theorem enum_eq_enumFrom {α : Type} (l : List α) : l.enum = l.enumFrom 0 := rfl

theorem sanitizeFleet_some (b : List (List Int)) :
    sanitizeFleet (some b) =
      (if (!validBoard b) = true then none
       else
         match extractShips b with
         | none => none
         | some ships =>
           if sortedLens ships ≠ wantedLens then none
           else some (buildBoard (renumber ships), renumber ships)) := rfl

theorem extractShips_boardOfP {P : List AShip} (hP : ValidPlacement P) :
    ∃ E2, extractShips (boardOfP P) = some E2 ∧ E2.Perm (P.map toShip) := by
  have h0v : ∀ x y : ℕ, (fun _ _ : ℕ => false) x y = visAt P 0 x y :=
    fun x y => (visAt_zero P x y).symm
  have h0E : ([] : List Ship).Perm ((startedShips P 0).map toShip) := by
    have h0 : startedShips P 0 = [] := by
      unfold startedShips
      refine List.filter_eq_nil_iff.mpr ?_
      intro s _
      simp
    rw [h0]
    rfl
  obtain ⟨v2, E2, hfold, hperm⟩ :=
    scan_extracts hP 100 0 rfl (fun _ _ => false) [] h0v h0E
  refine ⟨E2, ?_, hperm⟩
  unfold extractShips
  rw [← List.drop_zero allPos, hfold]
  rfl

theorem sanitize_valid_core {P : List AShip} (hP : ValidPlacement P) :
    ∃ E2, extractShips (boardOfP P) = some E2 ∧ E2.Perm (P.map toShip) ∧
      sanitizeFleet (some (boardOfP P)) =
        some (buildBoard (renumber E2), renumber E2) := by
  obtain ⟨E2, hex, hperm⟩ := extractShips_boardOfP hP
  have hlens : sortedLens E2 = wantedLens := by
    refine sortedLens_of_perm E2 ?_
    refine (hperm.map (·.length)).trans ?_
    rw [List.map_map]
    exact hP.2.2.2.2
  refine ⟨E2, hex, hperm, ?_⟩
  rw [sanitizeFleet_some, validBoard_boardOfP P hP.1]
  simp only [Bool.not_true, Bool.false_eq_true, if_false]
  rw [hex]
  show (if sortedLens E2 ≠ wantedLens then none
        else some (buildBoard (renumber E2), renumber E2)) =
    some (buildBoard (renumber E2), renumber E2)
  rw [if_neg (by rw [hlens]; exact fun hne => hne rfl)]

theorem isort_ships_eq {P : List AShip} (hP : ValidPlacement P) (E2 : List Ship)
    (hperm : E2.Perm (P.map toShip)) :
    isortLe (fun a b => decide (a.id ≤ b.id)) E2 = (sortById P).map toShip := by
  have htot : ∀ a b : Ship,
      (decide (a.id ≤ b.id)) = true ∨ (decide (b.id ≤ a.id)) = true := by
    intro a b
    rcases Int.le_total a.id b.id with h | h
    · exact Or.inl (by simpa using h)
    · exact Or.inr (by simpa using h)
  have htrans : ∀ a b c : Ship, (decide (a.id ≤ b.id)) = true →
      (decide (b.id ≤ c.id)) = true → (decide (a.id ≤ c.id)) = true := by
    intro a b c h1 h2
    simp only [decide_eq_true_eq] at h1 h2 ⊢
    omega
  have htotA : ∀ a b : AShip,
      (decide (a.aid ≤ b.aid)) = true ∨ (decide (b.aid ≤ a.aid)) = true := by
    intro a b
    rcases Int.le_total a.aid b.aid with h | h
    · exact Or.inl (by simpa using h)
    · exact Or.inr (by simpa using h)
  have htransA : ∀ a b c : AShip, (decide (a.aid ≤ b.aid)) = true →
      (decide (b.aid ≤ c.aid)) = true → (decide (a.aid ≤ c.aid)) = true := by
    intro a b c h1 h2
    simp only [decide_eq_true_eq] at h1 h2 ⊢
    omega
  refine sorted_ships_unique _ _ ?_ ?_ ?_ ?_
  · refine (isortLe_perm _ E2).trans (hperm.trans ?_)
    exact ((isortLe_perm _ P).map toShip).symm
  · have hpw := isortLe_pairwise (fun a b : Ship => decide (a.id ≤ b.id)) htot htrans E2
    exact hpw.imp (fun hab => by simpa using hab)
  · rw [List.pairwise_map]
    have hpw := isortLe_pairwise (fun a b : AShip => decide (a.aid ≤ b.aid)) htotA htransA P
    exact hpw.imp (fun hab => by simpa using hab)
  · have h1 : ((isortLe (fun a b => decide (a.id ≤ b.id)) E2).map (·.id)).Perm
        (P.map (·.aid)) := by
      refine ((isortLe_perm _ E2).map (·.id)).trans ?_
      refine (hperm.map (·.id)).trans ?_
      rw [List.map_map]
      exact List.Perm.refl _
    exact h1.nodup_iff.mpr hP.2.1

/-- C2: every grid submission encoding a valid placement — five straight
pairwise-disjoint runs with pairwise-distinct positive identifiers and
lengths forming the multiset `{5,4,3,3,2}` — is accepted by
`sanitizeFleet`; the returned fleet carries identifiers exactly
`[1,2,3,4,5]`, assigned in ascending order of the submission's original
identifiers (its cell runs and lengths are those of the placement sorted
by original identifier, stably), and the returned board holds a ship's
identifier exactly on that ship's cells and 0 everywhere else. -/
theorem sanitize_accepts_valid (P : List AShip) (hP : ValidPlacement P) :
    ∃ B S, sanitizeFleet (some (boardOfP P)) = some (B, S) ∧
      S.map (·.id) = [1, 2, 3, 4, 5] ∧
      S.map (·.cells) = (sortById P).map cellsOf ∧
      S.map (·.length) = (sortById P).map (·.len) ∧
      (∀ s ∈ S, ∀ p ∈ s.cells, B p.1 p.2 = s.id) ∧
      (∀ r c : ℕ, (∀ s ∈ S, (r, c) ∉ s.cells) → B r c = 0) := by
  obtain ⟨E2, hex, hperm, hres⟩ := sanitize_valid_core hP
  have hsort := isort_ships_eq hP E2 hperm
  have hlenP : P.length = 5 := by
    have hl := hP.2.2.2.2.length_eq
    simpa [wantedLens] using hl
  have hlenS0 : (isortLe (fun a b => decide (a.id ≤ b.id)) E2).length = 5 := by
    rw [hsort]
    simp only [List.length_map, sortById,
      (isortLe_perm (fun a b : AShip => decide (a.aid ≤ b.aid)) P).length_eq]
    exact hlenP
  have hid : (renumber E2).map (·.id) = [1, 2, 3, 4, 5] := by
    unfold renumber
    rw [enum_eq_enumFrom, enumFrom_renum_map_id, hlenS0]
    rfl
  have hcells : (renumber E2).map (·.cells) = (sortById P).map cellsOf := by
    unfold renumber
    rw [enum_eq_enumFrom, enumFrom_renum_map_cells, hsort, List.map_map]
    exact List.map_congr_left (fun a _ => rfl)
  have hlength : (renumber E2).map (·.length) = (sortById P).map (·.len) := by
    unfold renumber
    rw [enum_eq_enumFrom, enumFrom_renum_map_length, hsort, List.map_map]
    exact List.map_congr_left (fun a _ => rfl)
  have hsymm : Symmetric (fun a b : AShip => ∀ p ∈ cellsOf a, p ∉ cellsOf b) := by
    intro a b hab p hpb hpa
    exact hab p hpa hpb
  have hpwQ : (sortById P).Pairwise (fun a b => ∀ p ∈ cellsOf a, p ∉ cellsOf b) :=
    ((isortLe_perm _ P).pairwise_iff (fun hab => hsymm hab)).mpr hP.2.2.2.1
  have hpwS : (renumber E2).Pairwise (fun a b => ∀ p ∈ a.cells, p ∉ b.cells) := by
    have h1 : ((renumber E2).map (·.cells)).Pairwise
        (fun A B : List (ℕ × ℕ) => ∀ p ∈ A, p ∉ B) := by
      rw [hcells]
      exact List.pairwise_map.mpr hpwQ
    exact List.pairwise_map.mp h1
  have hbb := buildBoard_eval (renumber E2) hpwS
  exact ⟨buildBoard (renumber E2), renumber E2, hres, hid, hcells, hlength,
    hbb.1, hbb.2⟩

end Battleship

namespace Battleship

set_option maxRecDepth 40000 in
theorem sanitize_accepts_valid_witness :
    ∃ B S, sanitizeFleet (some (boardOfP goodP)) = some (B, S) ∧
      S.map (·.id) = [1, 2, 3, 4, 5] ∧
      S.map (·.cells) = (sortById goodP).map cellsOf ∧
      S.map (·.length) = (sortById goodP).map (·.len) ∧
      (∀ s ∈ S, ∀ p ∈ s.cells, B p.1 p.2 = s.id) ∧
      (∀ r c : ℕ, (∀ s ∈ S, (r, c) ∉ s.cells) → B r c = 0) :=
  sanitize_accepts_valid goodP (by
    unfold ValidPlacement inBoundsA
    refine ⟨by decide, by decide, ?_, by decide, by decide⟩
    decide)

end Battleship
